import Mathlib

/-!
# Constraint filtering of `re` (src/main.go)

A shallow embedding of the classification functions `getNogos`, `getGreens`,
`getYellows`, of the filtering stages `removeNogoLetters`,
`removeMissingGreenMatches`, `removeYellowMatches`, and of the way `main`
chains them (src/main.go, lines 208-215).

Conventions of the embedding.

* A Go `string` is the list of its bytes (`Str`), each byte a natural number
  below 256.  `string(b)` of a byte, `fmt.Sprintf("%c", b)` and `string(v)` of a
  rune are the UTF-8 encoding `encodeRune`; `for i, v := range s` over a string
  is `rangeStr` (byte offset and decoded rune), as in the Go language
  definition.
* A run-time panic (index out of range) is the result `none`.
* `map[string]bool` used as a set of seen keys is the list of its keys.
* `map[int]guess` as `main` builds it has the keys `0 .. len-1`; it is the list
  of its values in key order.
* `map[int]string` is the list of its entries; a `range` over it visits the
  entries in some order, here the order of the list.
-/

namespace Re

/-! ## Go strings -/

/-- A Go string, as the list of its bytes. -/
abbrev Str := List Nat

/-- The UTF-8 encoding of a rune: `string(r)` and `fmt.Sprintf("%c", r)`.
Surrogates and values above U+10FFFF encode as U+FFFD. -/
def encodeRune (r : Nat) : Str :=
  if r < 0x80 then [r]
  else if r < 0x800 then [0xC0 + r / 64, 0x80 + r % 64]
  else if (0xD800 ≤ r ∧ r ≤ 0xDFFF) ∨ 0x10FFFF < r then [0xEF, 0xBF, 0xBD]
  else if r < 0x10000 then [0xE0 + r / 4096, 0x80 + (r / 64) % 64, 0x80 + r % 64]
  else [0xF0 + r / 262144, 0x80 + (r / 4096) % 64, 0x80 + (r / 64) % 64, 0x80 + r % 64]

/-- A UTF-8 continuation byte. -/
def isCont (b : Nat) : Bool := decide (0x80 ≤ b ∧ b ≤ 0xBF)

/-- The first rune of a string and its width in bytes, as `range` over a string
decodes it: an invalid or truncated sequence gives U+FFFD and width 1. -/
def decodeRune : Str → Nat × Nat
  | [] => (0xFFFD, 0)
  | b0 :: rest =>
    if b0 < 0x80 then (b0, 1)
    else if 0xC2 ≤ b0 ∧ b0 ≤ 0xDF then
      match rest with
      | b1 :: _ =>
        if isCont b1 then ((b0 % 32) * 64 + b1 % 64, 2) else (0xFFFD, 1)
      | _ => (0xFFFD, 1)
    else if 0xE0 ≤ b0 ∧ b0 ≤ 0xEF then
      match rest with
      | b1 :: b2 :: _ =>
        if (if b0 = 0xE0 then 0xA0 else 0x80) ≤ b1
            ∧ b1 ≤ (if b0 = 0xED then 0x9F else 0xBF) ∧ isCont b2 = true then
          ((b0 % 16) * 4096 + (b1 % 64) * 64 + b2 % 64, 3)
        else (0xFFFD, 1)
      | _ => (0xFFFD, 1)
    else if 0xF0 ≤ b0 ∧ b0 ≤ 0xF4 then
      match rest with
      | b1 :: b2 :: b3 :: _ =>
        if (if b0 = 0xF0 then 0x90 else 0x80) ≤ b1
            ∧ b1 ≤ (if b0 = 0xF4 then 0x8F else 0xBF)
            ∧ isCont b2 = true ∧ isCont b3 = true then
          ((b0 % 8) * 262144 + (b1 % 64) * 4096 + (b2 % 64) * 64 + b3 % 64, 4)
        else (0xFFFD, 1)
      | _ => (0xFFFD, 1)
    else (0xFFFD, 1)

/-- The loop `for i, v := range s` over a string, from byte offset `off`, with
`skip` bytes of the current rune still to pass: the pairs (offset, rune). -/
def rangeAux : Nat → Nat → Str → List (Nat × Nat)
  | _, _, [] => []
  | 0, off, b :: rest =>
    (off, (decodeRune (b :: rest)).1)
      :: rangeAux ((decodeRune (b :: rest)).2 - 1) (off + 1) rest
  | skip + 1, off, _ :: rest => rangeAux skip (off + 1) rest

/-- The pairs (byte offset, rune) that `for i, v := range s` visits. -/
def rangeStr (s : Str) : List (Nat × Nat) := rangeAux 0 0 s

/-- Whether `s` begins with `p` (`strings.HasPrefix`). -/
def startsWith : Str → Str → Bool
  | _, [] => true
  | [], _ :: _ => false
  | b :: s, c :: p => decide (b = c) && startsWith s p

/-- Whether `sub` is a substring of `s` (`strings.Contains`). -/
def Contains : Str → Str → Bool
  | [], sub => startsWith [] sub
  | b :: s, sub => startsWith (b :: s) sub || Contains s sub

/-- The string `"-"`, the marker of an unconstrained position. -/
def dash : Str := [45]

/-- The string `"."`, feedback for an absent letter. -/
def dot : Str := [46]

/-- The string `"g"`, feedback for a letter in the correct position. -/
def gee : Str := [103]

/-- The string `"y"`, feedback for a letter present at another position. -/
def why : Str := [121]

/-- The bytes of an ASCII or UTF-8 text, to write Go string literals. -/
def str (s : String) : Str := s.data.flatMap (fun c => encodeRune c.toNat)

/-! ## Shared dedup step -/

/-- The state of a filtering loop: the keys of `allKeys` and the slice `list`. -/
abbrev Acc := List Str × List Str

/-- The dedup step shared by the loops:
`if _, value := allKeys[word]; !value { allKeys[word] = true; list = append(list, word) }`. -/
def keep (st : Acc) (word : Str) : Acc :=
  if word ∈ st.1 then st else (word :: st.1, st.2 ++ [word])

/-! ## Filtering stages -/

/-- The inner loop of `removeNogoLetters`: `goodWord` after the loop over
`nogo`, which stops at the first element contained in `word`. -/
def nogoGoodWord (word : Str) : List Str → Bool
  | [] => true
  | n :: rest => if Contains word n then false else nogoGoodWord word rest

/-- `removeNogoLetters` (src/main.go, lines 253-273). -/
def removeNogoLetters (s nogo : List Str) : List Str :=
  (s.foldl (fun st word => if nogoGoodWord word nogo then keep st word else st)
    (([], []) : Acc)).2

/-- The byte `word[i]` for an `int` index, `none` when out of range. -/
def byteAt (word : Str) (i : Int) : Option Nat :=
  if 0 ≤ i then word[i.toNat]? else none

/-- The inner loop of `removeMissingGreenMatches` over the entries of the
`green` map, from the current value of `goodWord`; there is no `break`, so
every entry is visited. -/
def greenGoodWord (word : Str) : List (Int × Str) → Bool → Option Bool
  | [], good => some good
  | (i, c) :: rest, good =>
    if c ≠ dash then
      match byteAt word i with
      | none => none
      | some b =>
        if encodeRune b ≠ c then greenGoodWord word rest false
        else greenGoodWord word rest good
    else greenGoodWord word rest good

/-- One iteration of the loop over `s` in `removeMissingGreenMatches`. -/
def greenStep (green : List (Int × Str)) (st : Acc) (word : Str) : Option Acc :=
  match greenGoodWord word green true with
  | none => none
  | some good => some (if good then keep st word else st)

/-- `removeMissingGreenMatches` (src/main.go, lines 277-300). -/
def removeMissingGreenMatches (s : List Str) (green : List (Int × Str)) :
    Option (List Str) :=
  (s.foldlM (greenStep green) (([], []) : Acc)).map Prod.snd

/-- The loop `for _, v := range c` of `removeYellowMatches` at position `i`,
over the runes of `c`, from the current value of `goodWord`: both branches
that set `goodWord = false` leave the loop by `break`. -/
def yellowInner (word : Str) (i : Nat) : List Nat → Bool → Option Bool
  | [], good => some good
  | v :: rest, good =>
    if Contains word (encodeRune v) then
      match word[i]? with
      | none => none
      | some b =>
        if encodeRune b = encodeRune v then some false
        else yellowInner word i rest good
    else some false

/-- The loop `for i, c := range yellow` of `removeYellowMatches`, over the
indexed entries, from the current value of `goodWord`. -/
def yellowGoodWord (word : Str) : List (Nat × Str) → Bool → Option Bool
  | [], good => some good
  | (i, c) :: rest, good =>
    if c ≠ dash then
      match yellowInner word i ((rangeStr c).map Prod.snd) good with
      | none => none
      | some good2 => yellowGoodWord word rest good2
    else yellowGoodWord word rest good

/-- One iteration of the loop over `s` in `removeYellowMatches`. -/
def yellowStep (yellow : List Str) (st : Acc) (word : Str) : Option Acc :=
  match yellowGoodWord word yellow.enum true with
  | none => none
  | some good => some (if good then keep st word else st)

/-- `removeYellowMatches` (src/main.go, lines 304-333). -/
def removeYellowMatches (s : List Str) (yellow : List Str) : Option (List Str) :=
  (s.foldlM (yellowStep yellow) (([], []) : Acc)).map Prod.snd

/-! ## Classification of the guess history -/

/-- A guess: the word that was guessed and the hits for it. -/
structure guess where
  /-- The word that was guessed. -/
  word : Str
  /-- The feedback, one symbol per letter. -/
  hits : Str
deriving DecidableEq, Repr

/-- The body of the loop `for j := 0; j < 5; j++` of `getNogos`. -/
def nogoStep (g : guess) (st : Acc) (j : Nat) : Option Acc :=
  match g.hits[j]? with
  | none => none
  | some sc =>
    if encodeRune sc = dot then
      match g.word[j]? with
      | none => none
      | some b => some (keep st (encodeRune b))
    else some st

/-- `getNogos` (src/main.go, lines 336-353). -/
def getNogos (guesses : List guess) : Option (List Str) :=
  (guesses.foldlM (fun st g => (List.range 5).foldlM (nogoStep g) st)
    (([], []) : Acc)).map Prod.snd

/-- The body of the loop `for k := range score` of `getGreens`, at the byte
offset `k` of a rune of `score`. -/
def greenSet (g : guess) (green : List Str) (k : Nat) : Option (List Str) :=
  match g.hits[k]? with
  | none => none
  | some sc =>
    if encodeRune sc = gee then
      match g.word[k]? with
      | none => none
      | some b => if k < green.length then some (green.set k (encodeRune b)) else none
    else some green

/-- `getGreens` (src/main.go, lines 356-373): the entries of the returned map. -/
def getGreens (guesses : List guess) : Option (List (Int × Str)) :=
  (guesses.foldlM
    (fun green g => ((rangeStr g.hits).map Prod.fst).foldlM (greenSet g) green)
    [dash, dash, dash, dash, dash]).map
    (fun green => green.enum.map (fun p => ((p.1 : Int), p.2)))

/-- The body of the loop `for j := 0; j < 5; j++` of `getYellows`. -/
def yellowAdd (g : guess) (yellow : List Str) (j : Nat) : Option (List Str) :=
  match g.hits[j]? with
  | none => none
  | some sc =>
    if encodeRune sc = why then
      match g.word[j]? with
      | none => none
      | some b =>
        match yellow[j]? with
        | none => none
        | some y =>
          if !Contains y (encodeRune b) then some (yellow.set j (y ++ encodeRune b))
          else some yellow
    else some yellow

/-- The body of the final loop of `getYellows`, which marks an empty entry
with `"-"`. -/
def yellowFill (yellow : List Str) (i : Nat) : Option (List Str) :=
  match yellow[i]? with
  | none => none
  | some y => if y = [] then some (yellow.set i dash) else some yellow

/-- `getYellows` (src/main.go, lines 378-404). -/
def getYellows (guesses : List guess) : Option (List Str) :=
  (guesses.foldlM (fun yellow g => (List.range 5).foldlM (yellowAdd g) yellow)
    [[], [], [], [], []]).bind
    (fun yellow => (List.range 5).foldlM yellowFill yellow)

/-- The filtering pipeline of `main` (src/main.go, lines 208-215). -/
def pipeline (guesses : List guess) (words : List Str) : Option (List Str) :=
  (getNogos guesses).bind fun nogo =>
  (getGreens guesses).bind fun green =>
  (removeMissingGreenMatches (removeNogoLetters words nogo) green).bind fun greenWords =>
  (getYellows guesses).bind fun yellows =>
  removeYellowMatches greenWords yellows

/-! ## Specification vocabulary -/

/-- The words of a list in the order of their first occurrence, leaving out
those already in `seen`: every later repeat of a word is removed. -/
def firstOccFrom (seen : List Str) : List Str → List Str
  | [] => []
  | w :: s => if w ∈ seen then firstOccFrom seen s else w :: firstOccFrom (w :: seen) s

/-- The list with every later repeat of a word removed. -/
def firstOcc (s : List Str) : List Str := firstOccFrom [] s

/-- The string `sub` occurs in `w` as a substring. -/
def Occurs (sub w : Str) : Prop := ∃ pre suf, w = pre ++ sub ++ suf

/-- A lowercase ASCII letter. -/
def isLower (b : Nat) : Prop := 97 ≤ b ∧ b ≤ 122

/-- An ASCII letter, of either case. -/
def isLetter (b : Nat) : Prop := (65 ≤ b ∧ b ≤ 90) ∨ (97 ≤ b ∧ b ≤ 122)

/-- A feedback symbol: `g`, `y` or `.`. -/
def isFeedback (b : Nat) : Prop := b = 103 ∨ b = 121 ∨ b = 46

instance (b : Nat) : Decidable (isLower b) := inferInstanceAs (Decidable (_ ∧ _))

instance (b : Nat) : Decidable (isLetter b) := inferInstanceAs (Decidable (_ ∨ _))

instance (b : Nat) : Decidable (isFeedback b) := inferInstanceAs (Decidable (_ ∨ _))

/-- A word of five lowercase letters. -/
def WfWord (w : Str) : Prop := w.length = 5 ∧ ∀ b ∈ w, isLower b

/-- A well-formed guess: word and feedback of length 5, the word in lowercase
letters, the feedback over `g`, `y`, `.`. -/
def WfGuess (g : guess) : Prop :=
  g.word.length = 5 ∧ g.hits.length = 5 ∧ (∀ b ∈ g.word, isLower b) ∧ (∀ b ∈ g.hits, isFeedback b)

/-- A well-formed guess history. -/
def WfHistory (h : List guess) : Prop := ∀ g ∈ h, WfGuess g

instance (w : Str) : Decidable (WfWord w) := inferInstanceAs (Decidable (_ ∧ _))

instance (g : guess) : Decidable (WfGuess g) := inferInstanceAs (Decidable (_ ∧ _))

instance (h : List guess) : Decidable (WfHistory h) := inferInstanceAs (Decidable (∀ g ∈ h, _))

/-- The test of the exclusion stage: the word contains no element of `nogo`. -/
def nogoPass (nogo : List Str) (w : Str) : Bool :=
  decide (∀ n ∈ nogo, Contains w n = false)

/-- The test of the correct-position stage: at every entry of the map that is
not `"-"`, the byte of the word at the key, as a string, is the value. -/
def greenPass (green : List (Int × Str)) (w : Str) : Bool :=
  decide (∀ p ∈ green, p.2 ≠ dash → (byteAt w p.1).map encodeRune = some p.2)

/-- The test of the present-wrong-position stage: at every index whose entry is
not `"-"`, every rune of the entry occurs in the word and is not the byte of
the word at that index. -/
def yellowPass (yellow : List Str) (w : Str) : Bool :=
  decide (∀ p ∈ yellow.enum, p.2 ≠ dash → ∀ v ∈ (rangeStr p.2).map Prod.snd,
    Contains w (encodeRune v) = true ∧ w[p.1]?.map encodeRune ≠ some (encodeRune v))

/-- The letter that `getNogos` records for position `j` of a guess, if any. -/
def nogoKey (g : guess) (j : Nat) : Option Str :=
  if g.hits[j]? = some 46 then g.word[j]?.map encodeRune else none

/-- The effect of one guess on entry `k` of the slice `green` in `getGreens`. -/
def greenUpd (g : guess) (k : Nat) (v : Str) : Str :=
  if g.hits[k]? = some 103 then encodeRune (g.word.getD k 0) else v

/-- Entry `k` of the slice `green` after the loop over the history. -/
def greenAt (h : List guess) (k : Nat) : Str :=
  h.foldl (fun v g => greenUpd g k v) dash

/-- The effect of one guess on entry `j` of the slice `yellow` in `getYellows`. -/
def yellowUpd (g : guess) (j : Nat) (y : Str) : Str :=
  if g.hits[j]? = some 121 then
    (if Contains y (encodeRune (g.word.getD j 0)) then y else y ++ encodeRune (g.word.getD j 0))
  else y

/-- Entry `j` of the slice `yellow` after the loop over the history and
before the final loop. -/
def yellowAt (h : List guess) (j : Nat) : Str :=
  h.foldl (fun y g => yellowUpd g j y) []

/-- The effect of the final loop of `getYellows` on an entry. -/
def fillDash (y : Str) : Str := if y = [] then dash else y

/-- The list that `getNogos` returns on a well-formed history. -/
def nogosOf (h : List guess) : List Str :=
  firstOcc (h.flatMap (fun g => (List.range 5).filterMap (nogoKey g)))

/-- The entries of the map that `getGreens` returns on a well-formed history. -/
def greensOf (h : List guess) : List (Int × Str) :=
  [(0, greenAt h 0), (1, greenAt h 1), (2, greenAt h 2), (3, greenAt h 3), (4, greenAt h 4)]

/-- The slice that `getYellows` returns on a well-formed history. -/
def yellowsOf (h : List guess) : List Str :=
  [fillDash (yellowAt h 0), fillDash (yellowAt h 1), fillDash (yellowAt h 2),
    fillDash (yellowAt h 3), fillDash (yellowAt h 4)]

/-- An example history: the single guess `crane` with feedback `..y..`. -/
def exHistory : List guess := [⟨str "crane", str "..y.."⟩]

/-- An example word list, with a repeated word. -/
def exWords : List Str := [str "beast", str "apple", str "roads", str "apple", str "moist"]

/-- An example list of excluded letters: `c`, `r`. -/
def exNogo : List Str := [str "c", str "r"]

/-- An example green map: `m` required at position 0, `t` at position 4. -/
def exGreen : List (Int × Str) := [(0, str "m"), (1, dash), (2, dash), (3, dash), (4, str "t")]

/-- An example yellow slice: `o` and `s` known at position 2, `d` at position 4. -/
def exYellow : List Str := [dash, dash, str "os", dash, str "d"]

/-- The word list of the filtering scenario: `beast`, `apple`, `roads`. -/
def exScenario : List Str := [str "beast", str "apple", str "roads"]

/-- The feedback symbol of letter `b` at position `j` against the secret `s`, for
a guess without repeated letters: `g` if `b` is the letter of `s` at `j`, `y`
if `b` occurs in `s` elsewhere, `.` if `b` does not occur in `s`. -/
def scoreAt (s : Str) (b j : Nat) : Nat :=
  if s[j]? = some b then 103 else if b ∈ s then 121 else 46

/-- The feedback string of a guessed word against the secret `s`. -/
def score (s word : Str) : Str := word.enum.map (fun p => scoreAt s p.2 p.1)

/-- The body of the loop of `getNogos` (symbol `.`) or `getYellows` (symbol `y`)
reads out of range at position `j` of the guess: the feedback ends before `j`,
or it has the symbol at `j` and the word ends before `j`. -/
def stepPanics (sym : Nat) (g : guess) (j : Nat) : Prop :=
  g.hits.length ≤ j ∨ (g.hits[j]? = some sym ∧ g.word.length ≤ j)

/-- The body of the loop of `getGreens` reads or writes out of range at byte
offset `k`: the feedback has `g` at `k`, and the word ends before `k` or `k` is
not an index of the slice `green`. -/
def greenPanics (g : guess) (k : Nat) : Prop :=
  g.hits[k]? = some 103 ∧ (g.word.length ≤ k ∨ 5 ≤ k)

/-! ## Lemmas on strings -/

theorem encodeRune_ascii {r : Nat} (h : r < 128) : encodeRune r = [r] := by
  simp [encodeRune, h]

theorem encodeRune_eq_singleton {b r : Nat} (h : encodeRune b = [r]) : b = r ∧ r < 128 := by
  unfold encodeRune at h
  split_ifs at h with h1 h2 h3 h4 <;> simp at h
  exact ⟨h, h ▸ h1⟩

theorem encodeRune_ne_nil (b : Nat) : encodeRune b ≠ [] := by
  unfold encodeRune
  split_ifs <;> simp

theorem encodeRune_eq_ascii_iff {b r : Nat} (h : r < 128) : encodeRune b = [r] ↔ b = r := by
  constructor
  · intro hb
    exact (encodeRune_eq_singleton hb).1
  · intro hb
    subst hb
    exact encodeRune_ascii h

theorem startsWith_iff (s p : Str) : startsWith s p = true ↔ ∃ t, s = p ++ t := by
  induction p generalizing s with
  | nil => simp [startsWith]
  | cons c p ih =>
    cases s with
    | nil => simp [startsWith]
    | cons b s =>
      simp only [startsWith, Bool.and_eq_true, decide_eq_true_eq, ih, List.cons_append,
        List.cons.injEq]
      constructor
      · rintro ⟨rfl, t, rfl⟩
        exact ⟨t, rfl, rfl⟩
      · rintro ⟨t, rfl, rfl⟩
        exact ⟨rfl, t, rfl⟩

theorem Contains_iff (s sub : Str) : Contains s sub = true ↔ Occurs sub s := by
  induction s with
  | nil =>
    simp only [Contains, startsWith_iff, Occurs]
    constructor
    · rintro ⟨t, ht⟩
      exact ⟨[], t, by simpa using ht⟩
    · rintro ⟨pre, suf, h⟩
      have h2 := congrArg List.length h
      simp at h2
      have hsub : sub = [] := List.length_eq_zero.mp (by omega)
      exact ⟨[], by simp [hsub]⟩
  | cons b s ih =>
    simp only [Contains, Bool.or_eq_true, startsWith_iff, ih, Occurs]
    constructor
    · rintro (⟨t, ht⟩ | ⟨pre, suf, h⟩)
      · exact ⟨[], t, by simpa using ht⟩
      · exact ⟨b :: pre, suf, by simp [h]⟩
    · rintro ⟨pre, suf, h⟩
      cases pre with
      | nil => exact Or.inl ⟨suf, by simpa using h⟩
      | cons a pre =>
        simp at h
        exact Or.inr ⟨pre, suf, by simp [h.2]⟩

theorem occurs_singleton (b : Nat) (w : Str) : Occurs [b] w ↔ b ∈ w := by
  constructor
  · rintro ⟨pre, suf, rfl⟩
    simp
  · intro h
    obtain ⟨pre, suf, rfl⟩ := List.append_of_mem h
    exact ⟨pre, suf, by simp⟩

theorem Contains_singleton (s : Str) (b : Nat) : Contains s [b] = true ↔ b ∈ s := by
  rw [Contains_iff, occurs_singleton]

theorem rangeAux_ascii (s : Str) (off : Nat) (h : ∀ b ∈ s, b < 128) :
    rangeAux 0 off s = s.enumFrom off := by
  induction s generalizing off with
  | nil => simp [rangeAux]
  | cons b s ih =>
    have hb : b < 128 := h b (List.mem_cons_self _ _)
    have hs : ∀ c ∈ s, c < 128 := fun c hc => h c (List.mem_cons_of_mem _ hc)
    simp [rangeAux, decodeRune, hb, ih (off + 1) hs, List.enumFrom]

theorem rangeStr_ascii (s : Str) (h : ∀ b ∈ s, b < 128) : rangeStr s = s.enum := by
  simp [rangeStr, List.enum, rangeAux_ascii s 0 h]

/-! ## Lemmas on the dedup loops -/

theorem mem_firstOccFrom (seen s : List Str) (w : Str) :
    w ∈ firstOccFrom seen s ↔ w ∈ s ∧ w ∉ seen := by
  induction s generalizing seen with
  | nil => simp [firstOccFrom]
  | cons a s ih =>
    unfold firstOccFrom
    by_cases ha : a ∈ seen
    · simp only [ha, if_true, ih, List.mem_cons]
      constructor
      · rintro ⟨h1, h2⟩
        exact ⟨Or.inr h1, h2⟩
      · rintro ⟨h1 | h1, h2⟩
        · exact absurd (h1 ▸ ha) h2
        · exact ⟨h1, h2⟩
    · simp only [ha, if_false, List.mem_cons, ih]
      constructor
      · rintro (h1 | ⟨h1, h2⟩)
        · exact ⟨Or.inl h1, h1 ▸ ha⟩
        · exact ⟨Or.inr h1, fun h3 => h2 (Or.inr h3)⟩
      · rintro ⟨h1 | h1, h2⟩
        · exact Or.inl h1
        · by_cases hwa : w = a
          · exact Or.inl hwa
          · exact Or.inr ⟨h1, fun h3 => h3.elim hwa h2⟩

theorem nodup_firstOccFrom (seen s : List Str) : (firstOccFrom seen s).Nodup := by
  induction s generalizing seen with
  | nil => simp [firstOccFrom]
  | cons a s ih =>
    unfold firstOccFrom
    by_cases ha : a ∈ seen
    · simpa [ha] using ih seen
    · simp only [ha, if_false, List.nodup_cons]
      refine ⟨?_, ih _⟩
      rw [mem_firstOccFrom]
      simp

theorem sublist_firstOccFrom (seen s : List Str) : (firstOccFrom seen s).Sublist s := by
  induction s generalizing seen with
  | nil => simp [firstOccFrom]
  | cons a s ih =>
    unfold firstOccFrom
    by_cases ha : a ∈ seen
    · simpa [ha] using (ih seen).cons a
    · simpa [ha] using (ih (a :: seen)).cons₂ a

theorem firstOccFrom_of_nodup (seen s : List Str) (hs : s.Nodup) (hd : ∀ w ∈ s, w ∉ seen) :
    firstOccFrom seen s = s := by
  induction s generalizing seen with
  | nil => simp [firstOccFrom]
  | cons a s ih =>
    have ha : a ∉ seen := hd a (List.mem_cons_self _ _)
    rw [List.nodup_cons] at hs
    unfold firstOccFrom
    simp only [ha, if_false, List.cons.injEq, true_and]
    apply ih _ hs.2
    intro w hw hmem
    rcases List.mem_cons.mp hmem with h1 | h1
    · exact hs.1 (h1 ▸ hw)
    · exact hd w (List.mem_cons_of_mem _ hw) h1

theorem firstOcc_of_nodup (s : List Str) (hs : s.Nodup) : firstOcc s = s :=
  firstOccFrom_of_nodup [] s hs (by simp)

theorem foldl_keep_snd (keys : List Str) (st : Acc) :
    (keys.foldl keep st).2 = st.2 ++ firstOccFrom st.1 keys := by
  induction keys generalizing st with
  | nil => simp [firstOccFrom]
  | cons a keys ih =>
    rw [List.foldl_cons, ih]
    by_cases ha : a ∈ st.1
    · simp [keep, firstOccFrom, ha]
    · simp [keep, firstOccFrom, ha]

theorem foldl_filter_keep (test : Str → Bool) (s : List Str) (st : Acc) :
    s.foldl (fun st w => if test w then keep st w else st) st
      = (s.filter test).foldl keep st := by
  induction s generalizing st with
  | nil => rfl
  | cons a s ih =>
    by_cases ha : test a
    · simp [List.filter, ha, ih]
    · simp [List.filter, ha, ih]

theorem foldl_filterMap_keep {ι : Type} (key : ι → Option Str) (l : List ι) (st : Acc) :
    l.foldl (fun st x => match key x with
      | some c => keep st c
      | none => st) st = (l.filterMap key).foldl keep st := by
  induction l generalizing st with
  | nil => rfl
  | cons a l ih =>
    cases ha : key a with
    | none => simp [List.filterMap, ha, ih]
    | some c => simp [List.filterMap, ha, ih]

theorem foldl_flatMap_keep {ι : Type} (keys : ι → List Str) (l : List ι) (st : Acc) :
    l.foldl (fun st x => (keys x).foldl keep st) st = (l.flatMap keys).foldl keep st := by
  induction l generalizing st with
  | nil => rfl
  | cons a l ih => simp [List.flatMap_cons, List.foldl_append, ih]

/-- A loop whose body cannot fail is the corresponding pure loop. -/
theorem foldlM_eq_some_foldl {σ ι : Type} (f : σ → ι → Option σ) (f2 : σ → ι → σ)
    (l : List ι) (hf : ∀ x ∈ l, ∀ st, f st x = some (f2 st x)) (st : σ) :
    l.foldlM f st = some (l.foldl f2 st) := by
  induction l generalizing st with
  | nil => rfl
  | cons a l ih =>
    rw [List.foldlM_cons, hf a (List.mem_cons_self _ _) st]
    exact ih (fun x hx => hf x (List.mem_cons_of_mem _ hx)) _

/-- A filtering loop whose per-word test may panic returns exactly when no
test panics, and then it is the dedup of the words passing the test. -/
theorem foldlM_stage (test : Str → Option Bool) (s : List Str) (st st2 : Acc) :
    s.foldlM (fun st w => match test w with
        | none => none
        | some good => some (if good then keep st w else st)) st = some st2
      ↔ (∀ w ∈ s, (test w).isSome = true)
        ∧ st2 = (s.filter (fun w => (test w).getD false)).foldl keep st := by
  induction s generalizing st with
  | nil =>
    constructor
    · intro h
      have h2 : st = st2 := Option.some.inj h
      simp [h2]
    · rintro ⟨_, h⟩
      simp [h]
  | cons a s ih =>
    rw [List.foldlM_cons]
    cases ha : test a with
    | none => simp [ha]
    | some good =>
      simp only [Option.bind_eq_bind, Option.some_bind, ih, List.mem_cons, forall_eq_or_imp, ha,
        Option.isSome_some, true_and, List.filter, Option.getD_some]
      cases good <;> simp

/-! ## The per-word tests of the stages -/

theorem nogoGoodWord_eq (w : Str) (nogo : List Str) : nogoGoodWord w nogo = nogoPass nogo w := by
  induction nogo with
  | nil => simp [nogoGoodWord, nogoPass]
  | cons n rest ih =>
    unfold nogoGoodWord
    by_cases hn : Contains w n = true
    · simp [hn, nogoPass]
    · simp only [hn, if_false, ih, nogoPass, List.mem_cons, forall_eq_or_imp]
      simp [hn]

theorem greenPass_cons (w : Str) (p : Int × Str) (rest : List (Int × Str)) :
    greenPass (p :: rest) w = true
      ↔ (p.2 ≠ dash → (byteAt w p.1).map encodeRune = some p.2) ∧ greenPass rest w = true := by
  simp [greenPass]

theorem greenGoodWord_isSome (w : Str) (green : List (Int × Str)) (good : Bool) :
    (greenGoodWord w green good).isSome = true
      ↔ ∀ p ∈ green, p.2 ≠ dash → (byteAt w p.1).isSome = true := by
  induction green generalizing good with
  | nil => simp [greenGoodWord]
  | cons p rest ih =>
    obtain ⟨i, c⟩ := p
    unfold greenGoodWord
    by_cases hc : c = dash
    · simp [hc, ih]
    · cases hb : byteAt w i with
      | none => simp [hc, hb]
      | some b =>
        by_cases he : encodeRune b = c
        · simp [hc, hb, he, ih]
        · simp [hc, hb, he, ih]

theorem greenGoodWord_iff (w : Str) (green : List (Int × Str)) (good r : Bool)
    (h : greenGoodWord w green good = some r) :
    r = true ↔ good = true ∧ greenPass green w = true := by
  induction green generalizing good with
  | nil =>
    simp [greenGoodWord] at h
    simp [greenPass, h]
  | cons p rest ih =>
    obtain ⟨i, c⟩ := p
    unfold greenGoodWord at h
    rw [greenPass_cons]
    by_cases hc : c = dash
    · simp only [hc, ne_eq, not_true_eq_false, if_false] at h
      simp [hc, ih good h]
    · cases hb : byteAt w i with
      | none => simp [hc, hb] at h
      | some b =>
        by_cases he : encodeRune b = c
        · simp only [hc, hb, he, ne_eq, not_false_eq_true, not_true_eq_false, if_true,
            if_false] at h
          simp [hc, he, ih good h]
        · simp only [hc, hb, he, ne_eq, not_false_eq_true, if_true] at h
          simp [hc, he, ih false h]

theorem greenGoodWord_getD (w : Str) (green : List (Int × Str))
    (h : (greenGoodWord w green true).isSome = true) :
    (greenGoodWord w green true).getD false = greenPass green w := by
  obtain ⟨r, hr⟩ := Option.isSome_iff_exists.mp h
  rw [hr, Option.getD_some, Bool.eq_iff_iff, greenGoodWord_iff w green true r hr]
  simp

theorem yellowInner_iff (w : Str) (i : Nat) (vs : List Nat) (good r : Bool)
    (h : yellowInner w i vs good = some r) :
    r = true ↔ good = true ∧ ∀ v ∈ vs, Contains w (encodeRune v) = true
      ∧ w[i]?.map encodeRune ≠ some (encodeRune v) := by
  induction vs with
  | nil =>
    simp [yellowInner] at h
    simp [h]
  | cons v rest ih =>
    unfold yellowInner at h
    by_cases hv : Contains w (encodeRune v) = true
    · cases hb : w[i]? with
      | none => simp [hv, hb] at h
      | some b =>
        by_cases he : encodeRune b = encodeRune v
        · simp [hv, hb, he] at h
          simp [← h, he]
        · simp only [hv, hb, he, if_true, if_false] at h
          rw [ih h]
          simp [hv, hb, he]
    · simp [hv] at h
      subst h
      simp [hv]

theorem yellowInner_isSome (w : Str) (i : Nat) (vs : List Nat) (good : Bool)
    (hi : i < w.length) : (yellowInner w i vs good).isSome = true := by
  induction vs with
  | nil => simp [yellowInner]
  | cons v rest ih =>
    unfold yellowInner
    have hb : w[i]? = some w[i] := List.getElem?_eq_getElem hi
    by_cases hv : Contains w (encodeRune v) = true
    · by_cases he : encodeRune w[i] = encodeRune v
      · simp [hv, hb, he]
      · simp [hv, hb, he, ih]
    · simp [hv]

theorem yellowGoodWord_iff (w : Str) (ys : List (Nat × Str)) (good r : Bool)
    (h : yellowGoodWord w ys good = some r) :
    r = true ↔ good = true ∧ ∀ p ∈ ys, p.2 ≠ dash → ∀ v ∈ (rangeStr p.2).map Prod.snd,
      Contains w (encodeRune v) = true
        ∧ w[p.1]?.map encodeRune ≠ some (encodeRune v) := by
  induction ys generalizing good with
  | nil =>
    simp [yellowGoodWord] at h
    simp [h]
  | cons p rest ih =>
    obtain ⟨i, c⟩ := p
    unfold yellowGoodWord at h
    by_cases hc : c = dash
    · simp only [hc, ne_eq, not_true_eq_false, if_false] at h
      rw [ih good h]
      simp [hc]
    · simp only [hc, ne_eq, not_false_eq_true, if_true] at h
      cases hin : yellowInner w i ((rangeStr c).map Prod.snd) good with
      | none => simp [hin] at h
      | some g2 =>
        simp only [hin] at h
        rw [ih g2 h, yellowInner_iff w i _ good g2 hin]
        simp only [List.mem_cons, forall_eq_or_imp, ne_eq, hc, not_false_eq_true, true_implies,
          and_assoc]

theorem yellowGoodWord_isSome (w : Str) (ys : List (Nat × Str)) (good : Bool)
    (hi : ∀ p ∈ ys, p.2 ≠ dash → p.1 < w.length) :
    (yellowGoodWord w ys good).isSome = true := by
  induction ys generalizing good with
  | nil => simp [yellowGoodWord]
  | cons p rest ih =>
    obtain ⟨i, c⟩ := p
    unfold yellowGoodWord
    have hrest : ∀ p ∈ rest, p.2 ≠ dash → p.1 < w.length :=
      fun p hp => hi p (List.mem_cons_of_mem _ hp)
    by_cases hc : c = dash
    · simp [hc, ih _ hrest]
    · have hlt : i < w.length := hi (i, c) (List.mem_cons_self _ _) hc
      have hs := yellowInner_isSome w i ((rangeStr c).map Prod.snd) good hlt
      obtain ⟨g2, hg2⟩ := Option.isSome_iff_exists.mp hs
      simp [hc, hg2, ih _ hrest]

theorem yellowGoodWord_getD (w : Str) (yellow : List Str)
    (h : (yellowGoodWord w yellow.enum true).isSome = true) :
    (yellowGoodWord w yellow.enum true).getD false = yellowPass yellow w := by
  obtain ⟨r, hr⟩ := Option.isSome_iff_exists.mp h
  rw [hr, Option.getD_some, Bool.eq_iff_iff, yellowGoodWord_iff w _ true r hr]
  simp [yellowPass]

/-! ## The stages as dedup of a filter -/

theorem removeNogoLetters_eq (s nogo : List Str) :
    removeNogoLetters s nogo = firstOcc (s.filter (nogoPass nogo)) := by
  unfold removeNogoLetters
  rw [foldl_filter_keep (fun w => nogoGoodWord w nogo) s, foldl_keep_snd]
  have hfun : (fun w => nogoGoodWord w nogo) = nogoPass nogo := by
    funext w
    exact nogoGoodWord_eq w nogo
  simp [firstOcc, hfun]

theorem removeMissingGreenMatches_eq_some (s : List Str) (green : List (Int × Str))
    (out : List Str) :
    removeMissingGreenMatches s green = some out
      ↔ (∀ w ∈ s, ∀ p ∈ green, p.2 ≠ dash → (byteAt w p.1).isSome = true)
        ∧ out = firstOcc (s.filter (greenPass green)) := by
  unfold removeMissingGreenMatches greenStep
  rw [Option.map_eq_some']
  constructor
  · rintro ⟨st2, hst, rfl⟩
    rw [foldlM_stage (fun w => greenGoodWord w green true)] at hst
    obtain ⟨hsome, rfl⟩ := hst
    refine ⟨fun w hw => (greenGoodWord_isSome w green true).mp (hsome w hw), ?_⟩
    rw [foldl_keep_snd]
    have hf : s.filter (fun w => (greenGoodWord w green true).getD false)
        = s.filter (greenPass green) :=
      List.filter_congr (fun w hw => greenGoodWord_getD w green (hsome w hw))
    simp [firstOcc, hf]
  · rintro ⟨hsome, rfl⟩
    have hsome2 : ∀ w ∈ s, (greenGoodWord w green true).isSome = true :=
      fun w hw => (greenGoodWord_isSome w green true).mpr (hsome w hw)
    refine ⟨_, (foldlM_stage (fun w => greenGoodWord w green true) s _ _).mpr ⟨hsome2, rfl⟩, ?_⟩
    rw [foldl_keep_snd]
    have hf : s.filter (fun w => (greenGoodWord w green true).getD false)
        = s.filter (greenPass green) :=
      List.filter_congr (fun w hw => greenGoodWord_getD w green (hsome2 w hw))
    simp [firstOcc, hf]

/-- The order in which `range` visits the entries of the `green` map does not
change the result of `removeMissingGreenMatches`. -/
theorem removeMissingGreenMatches_perm (s : List Str) (green1 green2 : List (Int × Str))
    (hperm : green1.Perm green2) :
    removeMissingGreenMatches s green1 = removeMissingGreenMatches s green2 := by
  have hpass : greenPass green1 = greenPass green2 := by
    funext w
    unfold greenPass
    exact decide_eq_decide.mpr
      ⟨fun h p hp => h p (hperm.mem_iff.mpr hp), fun h p hp => h p (hperm.mem_iff.mp hp)⟩
  apply Option.ext
  intro out
  rw [Option.mem_def, Option.mem_def, removeMissingGreenMatches_eq_some,
    removeMissingGreenMatches_eq_some, hpass]
  constructor
  · rintro ⟨h1, h2⟩
    exact ⟨fun w hw p hp => h1 w hw p (hperm.mem_iff.mpr hp), h2⟩
  · rintro ⟨h1, h2⟩
    exact ⟨fun w hw p hp => h1 w hw p (hperm.mem_iff.mp hp), h2⟩

theorem removeYellowMatches_of_some (s yellow out : List Str)
    (h : removeYellowMatches s yellow = some out) :
    out = firstOcc (s.filter (yellowPass yellow)) := by
  unfold removeYellowMatches yellowStep at h
  rw [Option.map_eq_some'] at h
  obtain ⟨st2, hst, rfl⟩ := h
  rw [foldlM_stage (fun w => yellowGoodWord w yellow.enum true)] at hst
  obtain ⟨hsome, rfl⟩ := hst
  rw [foldl_keep_snd]
  have hf : s.filter (fun w => (yellowGoodWord w yellow.enum true).getD false)
      = s.filter (yellowPass yellow) :=
    List.filter_congr (fun w hw => yellowGoodWord_getD w yellow (hsome w hw))
  simp [firstOcc, hf]

theorem removeYellowMatches_some (s yellow : List Str)
    (hi : ∀ w ∈ s, ∀ p ∈ yellow.enum, p.2 ≠ dash → p.1 < w.length) :
    removeYellowMatches s yellow = some (firstOcc (s.filter (yellowPass yellow))) := by
  have hsome : ∀ w ∈ s, (yellowGoodWord w yellow.enum true).isSome = true :=
    fun w hw => yellowGoodWord_isSome w _ true (hi w hw)
  have hex : ∃ out, removeYellowMatches s yellow = some out := by
    unfold removeYellowMatches yellowStep
    exact ⟨_, Option.map_eq_some'.mpr
      ⟨_, (foldlM_stage (fun w => yellowGoodWord w yellow.enum true) s _ _).mpr ⟨hsome, rfl⟩,
        rfl⟩⟩
  obtain ⟨out, hout⟩ := hex
  rw [hout, removeYellowMatches_of_some s yellow out hout]

theorem mem_firstOcc_filter (s : List Str) (test : Str → Bool) (w : Str) :
    w ∈ firstOcc (s.filter test) ↔ w ∈ s ∧ test w = true := by
  simp [firstOcc, mem_firstOccFrom, List.mem_filter]

theorem sublist_firstOcc_filter (s : List Str) (test : Str → Bool) :
    (firstOcc (s.filter test)).Sublist s :=
  (sublist_firstOccFrom [] _).trans (List.filter_sublist s)

/-! ## Loops that update a slice position by position -/

theorem set_eq_self_of_getElem? {α : Type} (l : List α) (j : Nat) (a : α)
    (h : l[j]? = some a) : l.set j a = l := by
  apply List.ext_getElem?
  intro k
  rw [List.getElem?_set]
  by_cases hjk : j = k
  · subst hjk
    obtain ⟨hlt, _⟩ := List.getElem?_eq_some.mp h
    simp [hlt, h]
  · simp [hjk]

/-- A loop `for j := 0; j < n; j++` whose body rewrites entry `j` of a slice
from its current value rewrites every entry below `n` once. -/
theorem pointwise_loop {α : Type} (f : List α → Nat → Option (List α)) (upd : Nat → α → α)
    (st : List α) (n : Nat) (hn : n ≤ st.length)
    (hf : ∀ st2 j a, j < n → st2.length = st.length → st2[j]? = some a →
      f st2 j = some (st2.set j (upd j a))) :
    ∃ st3, (List.range n).foldlM f st = some st3 ∧ st3.length = st.length
      ∧ ∀ k, st3[k]? = if k < n then st[k]?.map (upd k) else st[k]? := by
  induction n with
  | zero => exact ⟨st, rfl, rfl, by simp⟩
  | succ n ih =>
    obtain ⟨st1, h1, hlen1, hget1⟩ :=
      ih (by omega) (fun st2 j a hj => hf st2 j a (by omega))
    have hnlt : n < st.length := by omega
    have hst1n : st1[n]? = some st[n] := by
      rw [hget1 n]
      simp [List.getElem?_eq_getElem hnlt]
    refine ⟨st1.set n (upd n st[n]), ?_, by simp [hlen1], ?_⟩
    · rw [List.range_succ, List.foldlM_append, h1]
      simp [hf st1 n st[n] (by omega) hlen1 hst1n]
    · intro k
      rw [List.getElem?_set]
      by_cases hnk : n = k
      · subst hnk
        simp [hlen1, hnlt, List.getElem?_eq_getElem hnlt]
      · rw [if_neg hnk, hget1 k]
        by_cases hk : k < n
        · simp [hk, Nat.lt_succ_of_lt hk]
        · have hk2 : ¬ k < n + 1 := by omega
          simp [hk, hk2]

/-- The loop over the history, when each guess rewrites every entry of a
slice of five from its current value. -/
theorem history_loop {α : Type} (inner : List α → guess → Option (List α))
    (upd : guess → Nat → α → α) (h : List guess)
    (hinner : ∀ g ∈ h, ∀ st : List α, st.length = 5 →
      ∃ st2, inner st g = some st2 ∧ st2.length = 5 ∧ ∀ k, st2[k]? = st[k]?.map (upd g k))
    (st : List α) (hst : st.length = 5) :
    ∃ st3, h.foldlM inner st = some st3 ∧ st3.length = 5
      ∧ ∀ k, st3[k]? = st[k]?.map (fun a => h.foldl (fun v g => upd g k v) a) := by
  induction h generalizing st with
  | nil => exact ⟨st, rfl, hst, by simp⟩
  | cons g h ih =>
    obtain ⟨st2, h2, hlen2, hget2⟩ := hinner g (List.mem_cons_self _ _) st hst
    obtain ⟨st3, h3, hlen3, hget3⟩ :=
      ih (fun g2 hg2 => hinner g2 (List.mem_cons_of_mem _ hg2)) st2 hlen2
    refine ⟨st3, ?_, hlen3, ?_⟩
    · rw [List.foldlM_cons, h2]
      exact h3
    · intro k
      rw [hget3 k, hget2 k]
      simp [Option.map_map, Function.comp_def]

/-! ## Classification of a well-formed history -/

theorem wf_at (g : guess) (hg : WfGuess g) (j : Nat) (hj : j < 5) :
    ∃ sc b, g.hits[j]? = some sc ∧ g.word[j]? = some b ∧ isFeedback sc ∧ isLower b := by
  obtain ⟨hw, hh, hlow, hfb⟩ := hg
  have hjw : j < g.word.length := by omega
  have hjh : j < g.hits.length := by omega
  exact ⟨g.hits[j], g.word[j], List.getElem?_eq_getElem hjh, List.getElem?_eq_getElem hjw,
    hfb _ (List.getElem_mem hjh), hlow _ (List.getElem_mem hjw)⟩

theorem nogoStep_wf (g : guess) (hg : WfGuess g) (j : Nat) (hj : j < 5) (st : Acc) :
    nogoStep g st j = some (match nogoKey g j with
      | some c => keep st c
      | none => st) := by
  obtain ⟨sc, b, hsc, hb, _, _⟩ := wf_at g hg j hj
  unfold nogoStep nogoKey
  by_cases h46 : sc = 46
  · simp [hsc, hb, h46, dot, encodeRune_ascii]
  · simp [hsc, hb, h46, dot, encodeRune_eq_ascii_iff]

theorem getNogos_wf (h : List guess) (hh : WfHistory h) :
    getNogos h = some (nogosOf h) := by
  unfold getNogos nogosOf
  have hinner : ∀ g ∈ h, ∀ st : Acc, (List.range 5).foldlM (nogoStep g) st
      = some (((List.range 5).filterMap (nogoKey g)).foldl keep st) := by
    intro g hg st
    rw [foldlM_eq_some_foldl (nogoStep g)
      (fun st j => match nogoKey g j with
        | some c => keep st c
        | none => st) (List.range 5)
      (fun j hj st => nogoStep_wf g (hh g hg) j (List.mem_range.mp hj) st) st]
    rw [foldl_filterMap_keep]
  rw [foldlM_eq_some_foldl _
    (fun st g => ((List.range 5).filterMap (nogoKey g)).foldl keep st) h hinner]
  rw [foldl_flatMap_keep, Option.map_some', foldl_keep_snd]
  simp [firstOcc]

theorem greenSet_wf (g : guess) (hg : WfGuess g) (st2 : List Str) (j : Nat) (a : Str)
    (hj : j < 5) (hlen : st2.length = 5) (ha : st2[j]? = some a) :
    greenSet g st2 j = some (st2.set j (greenUpd g j a)) := by
  obtain ⟨sc, b, hsc, hb, _, _⟩ := wf_at g hg j hj
  unfold greenSet greenUpd
  by_cases h103 : sc = 103
  · simp [hsc, hb, h103, gee, encodeRune_ascii, hlen, hj]
  · simp [hsc, hb, h103, gee, encodeRune_eq_ascii_iff, set_eq_self_of_getElem? st2 j a ha]

theorem range_hits_wf (g : guess) (hg : WfGuess g) :
    (rangeStr g.hits).map Prod.fst = List.range 5 := by
  have hascii : ∀ b ∈ g.hits, b < 128 := by
    intro b hb
    rcases hg.2.2.2 b hb with h1 | h1 | h1 <;> omega
  rw [rangeStr_ascii g.hits hascii, List.enum_map_fst, hg.2.1]

theorem getGreens_wf (h : List guess) (hh : WfHistory h) :
    getGreens h = some (greensOf h) := by
  unfold getGreens greensOf
  have hinner : ∀ g ∈ h, ∀ st : List Str, st.length = 5 →
      ∃ st2, ((rangeStr g.hits).map Prod.fst).foldlM (greenSet g) st = some st2
        ∧ st2.length = 5 ∧ ∀ k, st2[k]? = st[k]?.map (greenUpd g k) := by
    intro g hg st hst
    rw [range_hits_wf g (hh g hg)]
    obtain ⟨st3, h3, hlen3, hget3⟩ := pointwise_loop (greenSet g) (greenUpd g) st 5 (by omega)
      (fun st2 j a hj hlen ha => greenSet_wf g (hh g hg) st2 j a hj (by omega) ha)
    refine ⟨st3, h3, by omega, fun k => ?_⟩
    rw [hget3 k]
    by_cases hk : k < 5
    · simp [hk]
    · simp [hk, List.getElem?_eq_none (by omega : st.length ≤ k)]
  obtain ⟨st3, h3, hlen3, hget3⟩ := history_loop
    (fun green g => ((rangeStr g.hits).map Prod.fst).foldlM (greenSet g) green)
    greenUpd h hinner [dash, dash, dash, dash, dash] rfl
  have hst3 : st3 = [greenAt h 0, greenAt h 1, greenAt h 2, greenAt h 3, greenAt h 4] := by
    apply List.ext_getElem?
    intro k
    rw [hget3 k]
    rcases k with _ | _ | _ | _ | _ | k <;> simp [greenAt]
  rw [h3, hst3]
  rfl

theorem yellowAdd_wf (g : guess) (hg : WfGuess g) (st2 : List Str) (j : Nat) (a : Str)
    (hj : j < 5) (ha : st2[j]? = some a) :
    yellowAdd g st2 j = some (st2.set j (yellowUpd g j a)) := by
  obtain ⟨sc, b, hsc, hb, _, _⟩ := wf_at g hg j hj
  unfold yellowAdd yellowUpd
  by_cases h121 : sc = 121
  · by_cases hc : Contains a (encodeRune b) = true
    · simp [hsc, hb, h121, why, encodeRune_ascii, ha, hc, set_eq_self_of_getElem? st2 j a ha]
    · simp [hsc, hb, h121, why, encodeRune_ascii, ha, hc]
  · simp [hsc, hb, h121, why, encodeRune_eq_ascii_iff, set_eq_self_of_getElem? st2 j a ha]

theorem yellowFill_eq (st2 : List Str) (j : Nat) (a : Str) (ha : st2[j]? = some a) :
    yellowFill st2 j = some (st2.set j (fillDash a)) := by
  unfold yellowFill fillDash
  by_cases hnil : a = []
  · simp [ha, hnil]
  · simp [ha, hnil, set_eq_self_of_getElem? st2 j a ha]

theorem getYellows_wf (h : List guess) (hh : WfHistory h) :
    getYellows h = some (yellowsOf h) := by
  unfold getYellows yellowsOf
  have hinner : ∀ g ∈ h, ∀ st : List Str, st.length = 5 →
      ∃ st2, (List.range 5).foldlM (yellowAdd g) st = some st2
        ∧ st2.length = 5 ∧ ∀ k, st2[k]? = st[k]?.map (yellowUpd g k) := by
    intro g hg st hst
    obtain ⟨st3, h3, hlen3, hget3⟩ := pointwise_loop (yellowAdd g) (yellowUpd g) st 5 (by omega)
      (fun st2 j a hj _ ha => yellowAdd_wf g (hh g hg) st2 j a hj ha)
    refine ⟨st3, h3, by omega, fun k => ?_⟩
    rw [hget3 k]
    by_cases hk : k < 5
    · simp [hk]
    · simp [hk, List.getElem?_eq_none (by omega : st.length ≤ k)]
  obtain ⟨st3, h3, hlen3, hget3⟩ := history_loop
    (fun yellow g => (List.range 5).foldlM (yellowAdd g) yellow)
    yellowUpd h hinner [[], [], [], [], []] rfl
  obtain ⟨st4, h4, hlen4, hget4⟩ := pointwise_loop yellowFill (fun _ => fillDash) st3 5
    (by omega) (fun st2 j a _ _ ha => yellowFill_eq st2 j a ha)
  have hst4 : st4 = [fillDash (yellowAt h 0), fillDash (yellowAt h 1),
      fillDash (yellowAt h 2), fillDash (yellowAt h 3), fillDash (yellowAt h 4)] := by
    apply List.ext_getElem?
    intro k
    rw [hget4 k, hget3 k]
    rcases k with _ | _ | _ | _ | _ | k <;> simp [yellowAt]
  rw [h3, Option.some_bind, h4, hst4]

/-! ## What the classification records -/

theorem mem_nogos_iff (h : List guess) (n : Str) :
    n ∈ nogosOf h
      ↔ ∃ g ∈ h, ∃ j, j < 5 ∧ g.hits[j]? = some 46 ∧ g.word[j]?.map encodeRune = some n := by
  simp only [nogosOf, firstOcc, mem_firstOccFrom, List.mem_flatMap, List.mem_filterMap,
    List.mem_range, List.not_mem_nil, not_false_eq_true, and_true, nogoKey]
  constructor
  · rintro ⟨g, hg, j, hj, hkey⟩
    by_cases h46 : g.hits[j]? = some 46
    · rw [if_pos h46] at hkey
      exact ⟨g, hg, j, hj, h46, hkey⟩
    · rw [if_neg h46] at hkey
      cases hkey
  · rintro ⟨g, hg, j, hj, h46, hkey⟩
    exact ⟨g, hg, j, hj, by rw [if_pos h46]; exact hkey⟩

theorem foldl_greenUpd_none (h : List guess) (k : Nat) (v : Str)
    (hno : ∀ g ∈ h, g.hits[k]? ≠ some 103) :
    h.foldl (fun v g => greenUpd g k v) v = v := by
  induction h generalizing v with
  | nil => rfl
  | cons g h ih =>
    rw [List.foldl_cons, ih _ (fun g2 hg2 => hno g2 (List.mem_cons_of_mem _ hg2))]
    simp [greenUpd, hno g (List.mem_cons_self _ _)]

theorem greenAt_none (h : List guess) (k : Nat) (hno : ∀ g ∈ h, g.hits[k]? ≠ some 103) :
    greenAt h k = dash :=
  foldl_greenUpd_none h k dash hno

theorem greenAt_last (pre post : List guess) (g : guess) (k : Nat)
    (hg : g.hits[k]? = some 103) (hno : ∀ g2 ∈ post, g2.hits[k]? ≠ some 103) :
    greenAt (pre ++ g :: post) k = encodeRune (g.word.getD k 0) := by
  unfold greenAt
  rw [List.foldl_append, List.foldl_cons, foldl_greenUpd_none post k _ hno]
  simp [greenUpd, hg]

theorem exists_last {α : Type} (P : α → Prop) (l : List α) (hex : ∃ a ∈ l, P a) :
    ∃ pre a post, l = pre ++ a :: post ∧ P a ∧ ∀ b ∈ post, ¬ P b := by
  induction l with
  | nil => simp at hex
  | cons x l ih =>
    by_cases hl : ∃ a ∈ l, P a
    · obtain ⟨pre, a, post, rfl, ha, hpost⟩ := ih hl
      exact ⟨x :: pre, a, post, rfl, ha, hpost⟩
    · obtain ⟨a, ha, hPa⟩ := hex
      rcases List.mem_cons.mp ha with rfl | ha2
      · exact ⟨[], a, l, rfl, hPa, fun b hb hPb => hl ⟨b, hb, hPb⟩⟩
      · exact absurd ⟨a, ha2, hPa⟩ hl

theorem yellowUpd_wf (g : guess) (hg : WfGuess g) (j : Nat) (hj : j < 5) (y : Str) :
    ∃ b, g.word[j]? = some b ∧ isLower b
      ∧ yellowUpd g j y = if g.hits[j]? = some 121 ∧ b ∉ y then y ++ [b] else y := by
  obtain ⟨sc, b, hsc, hb, _, hlow⟩ := wf_at g hg j hj
  have hb128 : b < 128 := by
    have := hlow.2
    omega
  refine ⟨b, hb, hlow, ?_⟩
  unfold yellowUpd
  by_cases h121 : sc = 121
  · by_cases hmem : b ∈ y
    · simp [hsc, hb, h121, encodeRune_ascii hb128, Contains_singleton, hmem]
    · simp [hsc, hb, h121, encodeRune_ascii hb128, Contains_singleton, hmem]
  · simp [hsc, h121]

theorem foldl_yellowUpd (h : List guess) (hh : WfHistory h) (j : Nat) (hj : j < 5) (y : Str)
    (hy : y.Nodup) :
    (h.foldl (fun y g => yellowUpd g j y) y).Nodup
      ∧ ∀ c, c ∈ h.foldl (fun y g => yellowUpd g j y) y
        ↔ c ∈ y ∨ ∃ g ∈ h, g.hits[j]? = some 121 ∧ g.word[j]? = some c := by
  induction h generalizing y with
  | nil => simp [hy]
  | cons g h ih =>
    have hg : WfGuess g := hh g (List.mem_cons_self _ _)
    have hh2 : WfHistory h := fun g2 hg2 => hh g2 (List.mem_cons_of_mem _ hg2)
    obtain ⟨b, hb, _, hupd⟩ := yellowUpd_wf g hg j hj y
    rw [List.foldl_cons]
    by_cases hc : g.hits[j]? = some 121 ∧ b ∉ y
    · rw [hupd, if_pos hc]
      have hnd : (y ++ [b]).Nodup := by
        rw [List.nodup_append]
        refine ⟨hy, by simp, ?_⟩
        intro a ha hab
        simp at hab
        exact hc.2 (hab ▸ ha)
      obtain ⟨h1, h2⟩ := ih hh2 (y ++ [b]) hnd
      refine ⟨h1, fun c => ?_⟩
      rw [h2 c]
      simp only [List.mem_append, List.mem_singleton, List.mem_cons, exists_eq_or_imp, hb,
        Option.some.injEq, List.not_mem_nil, or_false]
      constructor
      · rintro ((h3 | h3) | h3)
        · exact Or.inl h3
        · exact Or.inr (Or.inl ⟨hc.1, h3.symm⟩)
        · exact Or.inr (Or.inr h3)
      · rintro (h3 | ⟨_, h3⟩ | h3)
        · exact Or.inl (Or.inl h3)
        · exact Or.inl (Or.inr h3.symm)
        · exact Or.inr h3
    · rw [hupd, if_neg hc]
      obtain ⟨h1, h2⟩ := ih hh2 y hy
      refine ⟨h1, fun c => ?_⟩
      rw [h2 c]
      simp only [List.mem_cons, exists_eq_or_imp, hb, Option.some.injEq]
      constructor
      · rintro (h3 | h3)
        · exact Or.inl h3
        · exact Or.inr (Or.inr h3)
      · rintro (h3 | ⟨h4, h3⟩ | h3)
        · exact Or.inl h3
        · by_cases hby : b ∈ y
          · exact Or.inl (h3 ▸ hby)
          · exact absurd ⟨h4, hby⟩ hc
        · exact Or.inr h3

theorem nodup_yellowAt (h : List guess) (hh : WfHistory h) (j : Nat) (hj : j < 5) :
    (yellowAt h j).Nodup :=
  (foldl_yellowUpd h hh j hj [] List.nodup_nil).1

theorem mem_yellowAt (h : List guess) (hh : WfHistory h) (j : Nat) (hj : j < 5) (c : Nat) :
    c ∈ yellowAt h j ↔ ∃ g ∈ h, g.hits[j]? = some 121 ∧ g.word[j]? = some c := by
  have := (foldl_yellowUpd h hh j hj [] List.nodup_nil).2 c
  simpa [yellowAt] using this

theorem lower_of_mem_yellowAt (h : List guess) (hh : WfHistory h) (j : Nat) (hj : j < 5)
    (c : Nat) (hc : c ∈ yellowAt h j) : isLower c := by
  obtain ⟨g, hg, _, hw⟩ := (mem_yellowAt h hh j hj c).mp hc
  obtain ⟨hlt, hget⟩ := List.getElem?_eq_some.mp hw
  exact hget ▸ (hh g hg).2.2.1 _ (List.getElem_mem hlt)

theorem yellowAt_append_recorded (h : List guess) (hh : WfHistory h) (g : guess)
    (hg : WfGuess g) (j : Nat) (hj : j < 5)
    (hrec : g.hits[j]? = some 121 →
      ∃ g2 ∈ h, g2.hits[j]? = some 121 ∧ g2.word[j]? = g.word[j]?) :
    yellowAt (h ++ [g]) j = yellowAt h j := by
  obtain ⟨b, hb, _, hupd⟩ := yellowUpd_wf g hg j hj (yellowAt h j)
  unfold yellowAt at hupd ⊢
  rw [List.foldl_append, List.foldl_cons, List.foldl_nil, hupd]
  apply if_neg
  rintro ⟨h121, hnot⟩
  obtain ⟨g2, hg2, h2, hw2⟩ := hrec h121
  exact hnot ((mem_yellowAt h hh j hj b).mpr ⟨g2, hg2, h2, hw2.trans hb⟩)

/-! ## The tests in the words of the specification -/

theorem nogoPass_iff (nogo : List Str) (w : Str) :
    nogoPass nogo w = true ↔ ∀ n ∈ nogo, ¬ Occurs n w := by
  unfold nogoPass
  rw [decide_eq_true_iff]
  constructor
  · intro h n hn hocc
    have := h n hn
    rw [(Contains_iff w n).mpr hocc] at this
    cases this
  · intro h n hn
    cases hc : Contains w n with
    | false => rfl
    | true => exact absurd ((Contains_iff w n).mp hc) (h n hn)

theorem map_encodeRune_eq_iff (o : Option Nat) (r : Nat) (hr : r < 128) :
    o.map encodeRune = some [r] ↔ o = some r := by
  cases o with
  | none => simp
  | some b => simp [encodeRune_eq_ascii_iff hr]

theorem greenPass_iff (green : List (Int × Str)) (w : Str)
    (hg : ∀ p ∈ green, p.2 = dash ∨ ∃ r, r < 128 ∧ p.2 = [r]) :
    greenPass green w = true
      ↔ ∀ i r, (i, [r]) ∈ green → [r] ≠ dash → byteAt w i = some r := by
  unfold greenPass
  rw [decide_eq_true_iff]
  constructor
  · intro h i r hmem hne
    rcases hg (i, [r]) hmem with hd | ⟨r2, hr2, heq⟩
    · exact absurd hd hne
    · have hrr : r = r2 := by simpa using heq
      subst hrr
      exact (map_encodeRune_eq_iff _ r hr2).mp (h (i, [r]) hmem hne)
  · intro h p hp hne
    obtain ⟨i, c⟩ := p
    rcases hg (i, c) hp with hd | ⟨r, hr, heq⟩
    · exact absurd hd hne
    · simp only at heq hne ⊢
      subst heq
      exact (map_encodeRune_eq_iff _ r hr).mpr (h i r hp hne)

theorem runes_ascii (c : Str) (hc : ∀ b ∈ c, b < 128) : (rangeStr c).map Prod.snd = c := by
  rw [rangeStr_ascii c hc, List.enum_map_snd]

theorem yellowPass_iff (yellow : List Str) (w : Str)
    (hy : ∀ c ∈ yellow, c ≠ dash → ∀ b ∈ c, b < 128) :
    yellowPass yellow w = true
      ↔ ∀ (i : Nat) (c : Str), yellow[i]? = some c → c ≠ dash →
        ∀ b ∈ c, b ∈ w ∧ w[i]? ≠ some b := by
  unfold yellowPass
  rw [decide_eq_true_iff]
  constructor
  · intro h i c hic hne b hb
    have hmem : c ∈ yellow := List.getElem?_mem hic
    have hb128 : b < 128 := hy c hmem hne b hb
    have hp : (i, c) ∈ yellow.enum := List.mk_mem_enum_iff_getElem?.mpr hic
    have hb2 : b ∈ (rangeStr c).map Prod.snd := by
      rw [runes_ascii c (hy c hmem hne)]
      exact hb
    obtain ⟨h1, h2⟩ := h (i, c) hp hne b hb2
    rw [encodeRune_ascii hb128] at h1 h2
    exact ⟨(Contains_singleton w b).mp h1,
      fun h3 => h2 ((map_encodeRune_eq_iff _ b hb128).mpr h3)⟩
  · intro h p hp hne v hv
    obtain ⟨i, c⟩ := p
    have hic : yellow[i]? = some c := List.mk_mem_enum_iff_getElem?.mp hp
    have hmem : c ∈ yellow := List.getElem?_mem hic
    simp only at hne hv ⊢
    rw [runes_ascii c (hy c hmem hne)] at hv
    have hv128 : v < 128 := hy c hmem hne v hv
    obtain ⟨h1, h2⟩ := h i c hic hne v hv
    rw [encodeRune_ascii hv128]
    exact ⟨(Contains_singleton w v).mpr h1,
      fun h3 => h2 ((map_encodeRune_eq_iff _ v hv128).mp h3)⟩

theorem firstOcc_idem (s : List Str) (test : Str → Bool) (ht : ∀ w ∈ s, test w = true) :
    firstOcc ((firstOcc s).filter test) = firstOcc s := by
  have hf : (firstOcc s).filter test = firstOcc s :=
    List.filter_eq_self.mpr (fun w hw => ht w ((sublist_firstOccFrom [] s).subset hw))
  rw [hf]
  exact firstOcc_of_nodup _ (nodup_firstOccFrom [] s)

/-! ## The pipeline -/

theorem mem_greensOf (h : List guess) (p : Int × Str) :
    p ∈ greensOf h ↔ ∃ k : Nat, k < 5 ∧ p = ((k : Int), greenAt h k) := by
  constructor
  · intro hp
    simp only [greensOf, List.mem_cons, List.mem_singleton, List.not_mem_nil, or_false] at hp
    rcases hp with rfl | rfl | rfl | rfl | rfl
    · exact ⟨0, by omega, rfl⟩
    · exact ⟨1, by omega, rfl⟩
    · exact ⟨2, by omega, rfl⟩
    · exact ⟨3, by omega, rfl⟩
    · exact ⟨4, by omega, rfl⟩
  · rintro ⟨k, hk, rfl⟩
    interval_cases k <;> simp [greensOf]

theorem getElem?_yellowsOf (h : List guess) (j : Nat) (c : Str) :
    (yellowsOf h)[j]? = some c ↔ j < 5 ∧ c = fillDash (yellowAt h j) := by
  rcases j with _ | _ | _ | _ | _ | j <;> simp [yellowsOf, eq_comm]

theorem byteAt_natCast (w : Str) (k : Nat) : byteAt w (k : Int) = w[k]? := by
  simp [byteAt]

theorem pipeline_sublist (h : List guess) (ws out : List Str)
    (hp : pipeline h ws = some out) : out.Sublist ws := by
  unfold pipeline at hp
  simp only [Option.bind_eq_some] at hp
  obtain ⟨nogo, _, green, _, greenWords, hgw, yellows, _, hout⟩ := hp
  have h1 := ((removeMissingGreenMatches_eq_some _ green greenWords).mp hgw).2
  have h2 := removeYellowMatches_of_some greenWords yellows out hout
  have s1 : (removeNogoLetters ws nogo).Sublist ws := by
    rw [removeNogoLetters_eq]
    exact sublist_firstOcc_filter ws _
  have s2 : greenWords.Sublist (removeNogoLetters ws nogo) := by
    rw [h1]
    exact sublist_firstOcc_filter _ _
  have s3 : out.Sublist greenWords := by
    rw [h2]
    exact sublist_firstOcc_filter _ _
  exact (s3.trans s2).trans s1

theorem pipeline_wf (h : List guess) (ws : List Str) (hh : WfHistory h)
    (hws : ∀ w ∈ ws, 5 ≤ w.length) :
    pipeline h ws = some (firstOcc ((firstOcc ((firstOcc
      (ws.filter (nogoPass (nogosOf h)))).filter (greenPass (greensOf h)))).filter
        (yellowPass (yellowsOf h)))) := by
  unfold pipeline
  rw [getNogos_wf h hh, getGreens_wf h hh, getYellows_wf h hh]
  simp only [Option.some_bind]
  rw [removeNogoLetters_eq]
  have hg : removeMissingGreenMatches (firstOcc (ws.filter (nogoPass (nogosOf h)))) (greensOf h)
      = some (firstOcc ((firstOcc (ws.filter (nogoPass (nogosOf h)))).filter
          (greenPass (greensOf h)))) := by
    rw [removeMissingGreenMatches_eq_some]
    refine ⟨?_, rfl⟩
    intro w hw p hp _
    have hwlen : 5 ≤ w.length := hws w ((sublist_firstOcc_filter ws _).subset hw)
    obtain ⟨k, hk, rfl⟩ := (mem_greensOf h p).mp hp
    rw [byteAt_natCast, List.getElem?_eq_getElem (by omega : k < w.length)]
    rfl
  have hy : ∀ s : List Str, (∀ w ∈ s, 5 ≤ w.length) →
      removeYellowMatches s (yellowsOf h) = some (firstOcc (s.filter (yellowPass (yellowsOf h)))) := by
    intro s hs
    apply removeYellowMatches_some
    intro w hw p hp _
    have hp2 := List.mem_enum_iff_getElem?.mp hp
    have hp3 := ((getElem?_yellowsOf h p.1 p.2).mp hp2).1
    have := hs w hw
    omega
  change (removeMissingGreenMatches (firstOcc (ws.filter (nogoPass (nogosOf h))))
    (greensOf h)).bind (fun greenWords => removeYellowMatches greenWords (yellowsOf h)) = _
  rw [hg, Option.some_bind]
  apply hy
  intro w hw
  exact hws w ((sublist_firstOcc_filter ws _).subset
    ((sublist_firstOcc_filter _ _).subset hw))

theorem pipeline_nil (ws : List Str) : pipeline [] ws = some (firstOcc ws) := by
  have hnil : WfHistory [] := by
    intro g hg
    cases hg
  unfold pipeline
  rw [getNogos_wf [] hnil, getGreens_wf [] hnil, getYellows_wf [] hnil]
  simp only [Option.some_bind]
  rw [removeNogoLetters_eq]
  have hn : ws.filter (nogoPass (nogosOf [])) = ws :=
    List.filter_eq_self.mpr (fun w _ => by simp [nogoPass, nogosOf, firstOcc, firstOccFrom])
  rw [hn]
  have hg : removeMissingGreenMatches (firstOcc ws) (greensOf []) = some (firstOcc ws) := by
    rw [removeMissingGreenMatches_eq_some]
    refine ⟨?_, ?_⟩
    · intro w _ p hp hne
      obtain ⟨k, _, rfl⟩ := (mem_greensOf [] p).mp hp
      exact absurd rfl hne
    · refine (firstOcc_idem ws _ ?_).symm
      intro w _
      simp [greenPass, greensOf, greenAt]
  have hy : removeYellowMatches (firstOcc ws) (yellowsOf []) = some (firstOcc ws) := by
    have hi : ∀ w ∈ firstOcc ws, ∀ p ∈ (yellowsOf []).enum, p.2 ≠ dash → p.1 < w.length := by
      intro w _ p hp hne
      have hp2 := List.mem_enum_iff_getElem?.mp hp
      have hp3 := ((getElem?_yellowsOf [] p.1 p.2).mp hp2).2
      exact absurd hp3 hne
    rw [removeYellowMatches_some _ _ hi]
    refine congrArg some (firstOcc_idem ws _ ?_)
    intro w _
    unfold yellowPass
    rw [decide_eq_true_iff]
    intro p hp hne
    have hp2 := List.mem_enum_iff_getElem?.mp hp
    have hp3 := ((getElem?_yellowsOf [] p.1 p.2).mp hp2).2
    exact absurd hp3 hne
  change (removeMissingGreenMatches (firstOcc ws) (greensOf [])).bind
    (fun greenWords => removeYellowMatches greenWords (yellowsOf [])) = _
  rw [hg, Option.some_bind, hy]

/-! ## The stages: exclusion, correct position, present at a wrong position -/

/-- Claim C2. For every word list `s` and every list `nogo` of one-byte strings,
a word is in `removeNogoLetters s nogo` exactly when it is in `s` and no
element of `nogo` occurs in it (as a substring; for a one-byte string: its
byte is not in the word). -/
theorem removeNogoLetters_spec (s nogo : List Str) (hn : ∀ n ∈ nogo, n.length = 1) (w : Str) :
    (w ∈ removeNogoLetters s nogo ↔ w ∈ s ∧ ∀ n ∈ nogo, ¬ Occurs n w)
      ∧ (w ∈ removeNogoLetters s nogo ↔ w ∈ s ∧ ∀ n ∈ nogo, ∀ c ∈ n, c ∉ w) := by
  have h1 : w ∈ removeNogoLetters s nogo ↔ w ∈ s ∧ ∀ n ∈ nogo, ¬ Occurs n w := by
    rw [removeNogoLetters_eq, mem_firstOcc_filter, nogoPass_iff]
  refine ⟨h1, ?_⟩
  rw [h1]
  refine and_congr_right (fun _ => forall_congr' (fun n => forall_congr' (fun hmem => ?_)))
  obtain ⟨c, rfl⟩ := List.length_eq_one.mp (hn n hmem)
  simp [occurs_singleton]

/-- Witness of C2 on the example word list and the excluded letters `c`, `r`. -/
theorem removeNogoLetters_spec_witness :
    (∀ n ∈ exNogo, n.length = 1)
      ∧ ((str "apple" ∈ removeNogoLetters exWords exNogo
          ↔ str "apple" ∈ exWords ∧ ∀ n ∈ exNogo, ¬ Occurs n (str "apple"))
        ∧ (str "apple" ∈ removeNogoLetters exWords exNogo
          ↔ str "apple" ∈ exWords ∧ ∀ n ∈ exNogo, ∀ c ∈ n, c ∉ str "apple")) :=
  ⟨by decide, removeNogoLetters_spec exWords exNogo (by decide) (str "apple")⟩

/-- Claim C3. For every list `s` of words of length at least 5 and every green
map with keys in 0..4 whose values are `"-"` or a single letter,
`removeMissingGreenMatches` returns, and a word is in its result exactly when
it is in `s` and has, at every key whose value `r` is not `"-"`, the byte `r`. -/
theorem removeMissingGreenMatches_spec (s : List Str) (green : List (Int × Str))
    (hs : ∀ w ∈ s, 5 ≤ w.length)
    (hg : ∀ p ∈ green, (0 ≤ p.1 ∧ p.1 ≤ 4)
      ∧ (p.2 = dash ∨ (p.2.length = 1 ∧ ∀ r ∈ p.2, isLetter r))) :
    ∃ out, removeMissingGreenMatches s green = some out
      ∧ ∀ w, w ∈ out ↔ w ∈ s ∧ ∀ i r, (i, [r]) ∈ green → [r] ≠ dash → byteAt w i = some r := by
  refine ⟨firstOcc (s.filter (greenPass green)), ?_, ?_⟩
  · rw [removeMissingGreenMatches_eq_some]
    refine ⟨?_, rfl⟩
    intro w hw p hp _
    obtain ⟨⟨h0, h4⟩, _⟩ := hg p hp
    have hlen := hs w hw
    have hlt : p.1.toNat < w.length := by omega
    simp [byteAt, h0, List.getElem?_eq_getElem hlt]
  · intro w
    rw [mem_firstOcc_filter, greenPass_iff]
    intro p hp
    rcases (hg p hp).2 with hd | ⟨hlen, hlet⟩
    · exact Or.inl hd
    · obtain ⟨r, hr⟩ := List.length_eq_one.mp hlen
      refine Or.inr ⟨r, ?_, hr⟩
      have := hlet r (by simp [hr])
      unfold isLetter at this
      omega

/-- Witness of C3 on the example word list and the example green map. -/
theorem removeMissingGreenMatches_spec_witness :
    (∀ w ∈ exWords, 5 ≤ w.length)
      ∧ (∀ p ∈ exGreen, (0 ≤ p.1 ∧ p.1 ≤ 4)
        ∧ (p.2 = dash ∨ (p.2.length = 1 ∧ ∀ r ∈ p.2, isLetter r)))
      ∧ ∃ out, removeMissingGreenMatches exWords exGreen = some out
        ∧ ∀ w, w ∈ out
          ↔ w ∈ exWords ∧ ∀ i r, (i, [r]) ∈ exGreen → [r] ≠ dash → byteAt w i = some r :=
  ⟨by decide, by decide, removeMissingGreenMatches_spec exWords exGreen (by decide) (by decide)⟩

/-- Claim C4. For every list `s` of 5-letter words and every 5-entry yellow
slice whose entries are `"-"` or a non-empty string of letters,
`removeYellowMatches` returns, and a word is in its result exactly when it is
in `s` and, for every index `i` whose entry is not `"-"` and every character
`b` of that entry, `b` occurs in the word and is not its byte at `i`. -/
theorem removeYellowMatches_spec (s yellow : List Str)
    (hs : ∀ w ∈ s, w.length = 5) (hy5 : yellow.length = 5)
    (hy : ∀ c ∈ yellow, c = dash ∨ (c ≠ [] ∧ ∀ b ∈ c, isLetter b)) :
    ∃ out, removeYellowMatches s yellow = some out
      ∧ ∀ w, w ∈ out ↔ w ∈ s ∧ ∀ (i : Nat) (c : Str), yellow[i]? = some c → c ≠ dash →
        ∀ b ∈ c, b ∈ w ∧ w[i]? ≠ some b := by
  refine ⟨firstOcc (s.filter (yellowPass yellow)), ?_, ?_⟩
  · apply removeYellowMatches_some
    intro w hw p hp _
    obtain ⟨hlt, _⟩ := List.getElem?_eq_some.mp (List.mem_enum_iff_getElem?.mp hp)
    have := hs w hw
    omega
  · intro w
    rw [mem_firstOcc_filter, yellowPass_iff]
    intro c hc hne b hb
    rcases hy c hc with hd | ⟨_, hlet⟩
    · exact absurd hd hne
    · have := hlet b hb
      unfold isLetter at this
      omega

/-- Witness of C4 on the example word list and the example yellow slice. -/
theorem removeYellowMatches_spec_witness :
    (∀ w ∈ exWords, w.length = 5) ∧ exYellow.length = 5
      ∧ (∀ c ∈ exYellow, c = dash ∨ (c ≠ [] ∧ ∀ b ∈ c, isLetter b))
      ∧ ∃ out, removeYellowMatches exWords exYellow = some out
        ∧ ∀ w, w ∈ out ↔ w ∈ exWords ∧ ∀ (i : Nat) (c : Str), exYellow[i]? = some c →
          c ≠ dash → ∀ b ∈ c, b ∈ w ∧ w[i]? ≠ some b :=
  ⟨by decide, by decide, by decide,
    removeYellowMatches_spec exWords exYellow (by decide) (by decide) (by decide)⟩

/-! ## Dedup, narrowing, and the empty history -/

/-- Claim C5. For every input list and every constraint value, the output of
each stage has no word twice and is the input restricted to the words passing
the test of the stage, with every later repeat of a word removed (`firstOcc`);
the exclusion stage always returns, the two others return when every index
they read is within the word. -/
theorem dedup_invariant (s nogo : List Str) (green : List (Int × Str)) (yellow : List Str) :
    ((removeNogoLetters s nogo).Nodup
        ∧ removeNogoLetters s nogo = firstOcc (s.filter (nogoPass nogo)))
      ∧ (∀ out, removeMissingGreenMatches s green = some out →
          out.Nodup ∧ out = firstOcc (s.filter (greenPass green)))
      ∧ (∀ out, removeYellowMatches s yellow = some out →
          out.Nodup ∧ out = firstOcc (s.filter (yellowPass yellow)))
      ∧ ((∀ w ∈ s, ∀ p ∈ green, p.2 ≠ dash → 0 ≤ p.1 ∧ p.1 < w.length) →
          ∃ out, removeMissingGreenMatches s green = some out)
      ∧ ((∀ w ∈ s, yellow.length ≤ w.length) →
          ∃ out, removeYellowMatches s yellow = some out) := by
  refine ⟨⟨?_, removeNogoLetters_eq s nogo⟩, ?_, ?_, ?_, ?_⟩
  · rw [removeNogoLetters_eq]
    exact nodup_firstOccFrom [] _
  · intro out hout
    have h := ((removeMissingGreenMatches_eq_some s green out).mp hout).2
    exact ⟨h ▸ nodup_firstOccFrom [] _, h⟩
  · intro out hout
    have h := removeYellowMatches_of_some s yellow out hout
    exact ⟨h ▸ nodup_firstOccFrom [] _, h⟩
  · intro hin
    refine ⟨_, (removeMissingGreenMatches_eq_some s green _).mpr ⟨?_, rfl⟩⟩
    intro w hw p hp hne
    obtain ⟨h0, hlt⟩ := hin w hw p hp hne
    have hlt2 : p.1.toNat < w.length := by omega
    simp [byteAt, h0, List.getElem?_eq_getElem hlt2]
  · intro hin
    refine ⟨_, removeYellowMatches_some s yellow ?_⟩
    intro w hw p hp _
    obtain ⟨hlt, _⟩ := List.getElem?_eq_some.mp (List.mem_enum_iff_getElem?.mp hp)
    have := hin w hw
    omega

/-- Witness of C5: the example word list holds `apple` twice, and the yellow
stage returns a list without repeats. -/
theorem dedup_invariant_witness :
    removeNogoLetters exWords exNogo = [str "beast", str "apple", str "moist"]
      ∧ [str "roads"].Nodup
      ∧ [str "roads"] = firstOcc (exWords.filter (yellowPass exYellow)) :=
  ⟨by decide, (dedup_invariant exWords exNogo exGreen exYellow).2.2.1 [str "roads"] (by decide)⟩

/-- Claim C6. The output of each stage is a subsequence of its input, for every
input list and every constraint value; so the output of the pipeline is a
subsequence of the word list and is no longer than it, and on a well-formed
history and words of length 5 the pipeline does return such a list. -/
theorem monotonic_narrowing (h : List guess) (ws s nogo : List Str) (green : List (Int × Str))
    (yellow : List Str) :
    (removeNogoLetters s nogo).Sublist s
      ∧ (∀ out, removeMissingGreenMatches s green = some out → out.Sublist s)
      ∧ (∀ out, removeYellowMatches s yellow = some out → out.Sublist s)
      ∧ (∀ out, pipeline h ws = some out → out.Sublist ws ∧ out.length ≤ ws.length)
      ∧ (WfHistory h → (∀ w ∈ ws, w.length = 5) →
          ∃ out, pipeline h ws = some out ∧ out.Sublist ws ∧ out.length ≤ ws.length) := by
  refine ⟨?_, ?_, ?_, ?_, ?_⟩
  · rw [removeNogoLetters_eq]
    exact sublist_firstOcc_filter s _
  · intro out hout
    rw [((removeMissingGreenMatches_eq_some s green out).mp hout).2]
    exact sublist_firstOcc_filter s _
  · intro out hout
    rw [removeYellowMatches_of_some s yellow out hout]
    exact sublist_firstOcc_filter s _
  · intro out hout
    have hsub := pipeline_sublist h ws out hout
    exact ⟨hsub, hsub.length_le⟩
  · intro hh hws
    have hp := pipeline_wf h ws hh (fun w hw => by rw [hws w hw])
    have hsub := pipeline_sublist h ws _ hp
    exact ⟨_, hp, hsub, hsub.length_le⟩

/-- Witness of C6 on the example history and word list. -/
theorem monotonic_narrowing_witness :
    WfHistory exHistory ∧ (∀ w ∈ exWords, w.length = 5)
      ∧ ∃ out, pipeline exHistory exWords = some out ∧ out.Sublist exWords
        ∧ out.length ≤ exWords.length :=
  ⟨by decide, by decide,
    (monotonic_narrowing exHistory exWords exWords exNogo exGreen exYellow).2.2.2.2
      (by decide) (by decide)⟩

/-- Claim C10. With the empty guess history the pipeline returns, for every word
list whatever the lengths of its words, the list with only the later repeats
of a word removed; on a list without duplicates it returns that very list. -/
theorem empty_history_no_narrowing (ws : List Str) :
    pipeline [] ws = some (firstOcc ws) ∧ (ws.Nodup → pipeline [] ws = some ws) := by
  refine ⟨pipeline_nil ws, fun hnd => ?_⟩
  rw [pipeline_nil, firstOcc_of_nodup ws hnd]

/-- Witness of C10: a duplicate-free list with words of several lengths. -/
theorem empty_history_no_narrowing_witness :
    [str "so", str "round", str "x"].Nodup
      ∧ pipeline [] [str "so", str "round", str "x"] = some [str "so", str "round", str "x"] :=
  ⟨by decide, (empty_history_no_narrowing [str "so", str "round", str "x"]).2 (by decide)⟩

/-! ## The constraints of a well-formed history, in the words of the specification -/

theorem word_at_wf (h : List guess) (hh : WfHistory h) (g : guess) (hg : g ∈ h) (j : Nat)
    (hj : j < 5) : ∃ b, g.word[j]? = some b ∧ isLower b ∧ b < 128 ∧ encodeRune b = [b] := by
  obtain ⟨_, b, _, hb, _, hlow⟩ := wf_at g (hh g hg) j hj
  have hb128 : b < 128 := by
    have := hlow.2
    omega
  exact ⟨b, hb, hlow, hb128, encodeRune_ascii hb128⟩

theorem nogoPass_wf (h : List guess) (hh : WfHistory h) (w : Str) :
    nogoPass (nogosOf h) w = true
      ↔ ∀ g ∈ h, ∀ j, j < 5 → g.hits[j]? = some 46 → ∀ b, g.word[j]? = some b → b ∉ w := by
  rw [nogoPass_iff]
  constructor
  · intro hno g hg j hj h46 b hb hbw
    obtain ⟨b2, hb2, _, _, henc⟩ := word_at_wf h hh g hg j hj
    have hbb : b2 = b := Option.some.inj (hb2.symm.trans hb)
    subst hbb
    refine hno [b2] ((mem_nogos_iff h [b2]).mpr ⟨g, hg, j, hj, h46, ?_⟩)
      ((occurs_singleton b2 w).mpr hbw)
    rw [hb2, Option.map_some', henc]
  · intro hall n hn hocc
    obtain ⟨g, hg, j, hj, h46, hkey⟩ := (mem_nogos_iff h n).mp hn
    obtain ⟨b, hb, _, _, henc⟩ := word_at_wf h hh g hg j hj
    rw [hb, Option.map_some', henc] at hkey
    have hnb : [b] = n := Option.some.inj hkey
    subst hnb
    exact hall g hg j hj h46 b hb ((occurs_singleton b w).mp hocc)

theorem greenAt_cases (h : List guess) (hh : WfHistory h) (k : Nat) (hk : k < 5) :
    ((∀ g ∈ h, g.hits[k]? ≠ some 103) ∧ greenAt h k = dash)
      ∨ ∃ pre g post b, h = pre ++ g :: post ∧ g.hits[k]? = some 103
          ∧ (∀ g2 ∈ post, g2.hits[k]? ≠ some 103)
          ∧ g.word[k]? = some b ∧ isLower b ∧ greenAt h k = [b] := by
  by_cases hex : ∃ g ∈ h, g.hits[k]? = some 103
  · obtain ⟨pre, g, post, hdec, hg103, hpost⟩ :=
      exists_last (fun g : guess => g.hits[k]? = some 103) h hex
    have hgmem : g ∈ h := by
      rw [hdec]
      simp
    obtain ⟨b, hb, hlow, _, henc⟩ := word_at_wf h hh g hgmem k hk
    refine Or.inr ⟨pre, g, post, b, hdec, hg103, hpost, hb, hlow, ?_⟩
    rw [hdec, greenAt_last pre post g k hg103 hpost]
    simp [hb, henc]
  · have hno : ∀ g ∈ h, g.hits[k]? ≠ some 103 := fun g hg h103 => hex ⟨g, hg, h103⟩
    exact Or.inl ⟨hno, greenAt_none h k hno⟩

theorem last_unique (h pre1 post1 pre2 post2 : List guess) (g1 g2 : guess)
    (P : guess → Prop) (h1 : h = pre1 ++ g1 :: post1) (h2 : h = pre2 ++ g2 :: post2)
    (hP1 : P g1) (hP2 : P g2) (hn1 : ∀ x ∈ post1, ¬ P x) (hn2 : ∀ x ∈ post2, ¬ P x) :
    g1 = g2 := by
  have heq : pre1 ++ g1 :: post1 = pre2 ++ g2 :: post2 := h1.symm.trans h2
  rcases List.append_eq_append_iff.mp heq with ⟨a, ha1, ha2⟩ | ⟨a, ha1, ha2⟩
  · cases a with
    | nil =>
      simp at ha2
      exact ha2.1
    | cons x a =>
      simp at ha2
      exact absurd hP2 (hn1 g2 (by rw [ha2.2]; simp))
  · cases a with
    | nil =>
      simp at ha2
      exact ha2.1.symm
    | cons x a =>
      simp at ha2
      exact absurd hP1 (hn2 g1 (by rw [ha2.2]; simp))

theorem greenPass_wf (h : List guess) (hh : WfHistory h) (w : Str) :
    greenPass (greensOf h) w = true
      ↔ ∀ k, k < 5 → ∀ pre g post, h = pre ++ g :: post → g.hits[k]? = some 103 →
          (∀ g2 ∈ post, g2.hits[k]? ≠ some 103) → w[k]? = g.word[k]? := by
  have hvals : ∀ p ∈ greensOf h, p.2 = dash ∨ ∃ r, r < 128 ∧ p.2 = [r] := by
    intro p hp
    obtain ⟨k, hk, rfl⟩ := (mem_greensOf h p).mp hp
    rcases greenAt_cases h hh k hk with ⟨_, hd⟩ | ⟨_, _, _, b, _, _, _, _, hlow, hb⟩
    · exact Or.inl hd
    · exact Or.inr ⟨b, by have := hlow.2; omega, hb⟩
  rw [greenPass_iff _ _ hvals]
  constructor
  · intro hall k hk pre g post hdec hg103 hpost
    rcases greenAt_cases h hh k hk with ⟨hno, _⟩ | ⟨pre2, g2, post2, b, hdec2, hg2, hpost2, hb, hlow, hat⟩
    · exact absurd hg103 (hno g (by rw [hdec]; simp))
    · have hgg : g = g2 := last_unique h pre post pre2 post2 g g2
        (fun x => x.hits[k]? = some 103) hdec hdec2 hg103 hg2 hpost hpost2
      subst hgg
      have hmem : ((k : Int), [b]) ∈ greensOf h :=
        (mem_greensOf h _).mpr ⟨k, hk, by rw [hat]⟩
      have hne : [b] ≠ dash := by
        intro hd
        have hb45 : b = 45 := by simpa [dash] using hd
        have := hlow.1
        omega
      have := hall (k : Int) b hmem hne
      rw [byteAt_natCast] at this
      rw [this, hb]
  · intro hall i r hmem hne
    obtain ⟨k, hk, hp⟩ := (mem_greensOf h _).mp hmem
    have hi : i = (k : Int) := congrArg Prod.fst hp
    have hr : [r] = greenAt h k := congrArg Prod.snd hp
    subst hi
    rw [byteAt_natCast]
    rcases greenAt_cases h hh k hk with ⟨_, hd⟩ | ⟨pre, g, post, b, hdec, hg103, hpost, hb, _, hat⟩
    · exact absurd (hr.trans hd) hne
    · have hrb : r = b := by simpa using hr.trans hat
      rw [hall k hk pre g post hdec hg103 hpost, hb, hrb]

theorem fillDash_yellowAt (h : List guess) (hh : WfHistory h) (j : Nat) (hj : j < 5) :
    ((∀ g ∈ h, g.hits[j]? ≠ some 121) ∧ fillDash (yellowAt h j) = dash)
      ∨ ((∃ g ∈ h, g.hits[j]? = some 121) ∧ fillDash (yellowAt h j) = yellowAt h j
          ∧ yellowAt h j ≠ dash) := by
  by_cases hex : ∃ g ∈ h, g.hits[j]? = some 121
  · obtain ⟨g, hg, h121⟩ := hex
    obtain ⟨b, hb, _, _, _⟩ := word_at_wf h hh g hg j hj
    have hmem : b ∈ yellowAt h j := (mem_yellowAt h hh j hj b).mpr ⟨g, hg, h121, hb⟩
    have hne : yellowAt h j ≠ [] := List.ne_nil_of_mem hmem
    refine Or.inr ⟨⟨g, hg, h121⟩, by simp [fillDash, hne], ?_⟩
    intro hd
    have h45 : (45 : Nat) ∈ yellowAt h j := by simp [hd, dash]
    have := (lower_of_mem_yellowAt h hh j hj 45 h45).1
    omega
  · have hnil : yellowAt h j = [] := by
      apply List.eq_nil_iff_forall_not_mem.mpr
      intro c hc
      obtain ⟨g, hg, h121, _⟩ := (mem_yellowAt h hh j hj c).mp hc
      exact hex ⟨g, hg, h121⟩
    exact Or.inl ⟨fun g hg h121 => hex ⟨g, hg, h121⟩, by simp [fillDash, hnil]⟩

theorem yellowPass_wf (h : List guess) (hh : WfHistory h) (w : Str) :
    yellowPass (yellowsOf h) w = true
      ↔ ∀ g ∈ h, ∀ j, j < 5 → g.hits[j]? = some 121 →
          ∀ b, g.word[j]? = some b → b ∈ w ∧ w[j]? ≠ some b := by
  have hvals : ∀ c ∈ yellowsOf h, c ≠ dash → ∀ b ∈ c, b < 128 := by
    intro c hc hne b hb
    obtain ⟨j, hjc⟩ := List.mem_iff_getElem?.mp hc
    obtain ⟨hj, rfl⟩ := (getElem?_yellowsOf h j c).mp hjc
    rcases fillDash_yellowAt h hh j hj with ⟨_, hd⟩ | ⟨_, hfill, _⟩
    · exact absurd hd hne
    · rw [hfill] at hb
      have := (lower_of_mem_yellowAt h hh j hj b hb).2
      omega
  rw [yellowPass_iff _ _ hvals]
  constructor
  · intro hall g hg j hj h121 b hb
    rcases fillDash_yellowAt h hh j hj with ⟨hno, _⟩ | ⟨_, hfill, hne⟩
    · exact absurd h121 (hno g hg)
    · have hjc : (yellowsOf h)[j]? = some (yellowAt h j) :=
        (getElem?_yellowsOf h j _).mpr ⟨hj, hfill.symm⟩
      exact hall j (yellowAt h j) hjc hne b ((mem_yellowAt h hh j hj b).mpr ⟨g, hg, h121, hb⟩)
  · intro hall j c hjc hne b hb
    obtain ⟨hj, rfl⟩ := (getElem?_yellowsOf h j c).mp hjc
    rcases fillDash_yellowAt h hh j hj with ⟨_, hd⟩ | ⟨_, hfill, _⟩
    · exact absurd hd hne
    · rw [hfill] at hb
      obtain ⟨g, hg, h121, hgb⟩ := (mem_yellowAt h hh j hj b).mp hb
      exact hall g hg j hj h121 b hgb

/-! ## Classification and the pipeline -/

/-- Claim C7. On a well-formed history `getNogos` returns a list of one-byte
strings without repeats, and the string of a byte `c` is in it exactly when
some guess has feedback `.` at some position `j` in 0..4 and the letter `c` at
`j`, whatever the other feedback of that letter. -/
theorem getNogos_spec (h : List guess) (hh : WfHistory h) :
    ∃ l, getNogos h = some l ∧ l.Nodup ∧ (∀ n ∈ l, n.length = 1)
      ∧ ∀ c : Nat, [c] ∈ l
        ↔ ∃ g ∈ h, ∃ j, j < 5 ∧ g.hits[j]? = some 46 ∧ g.word[j]? = some c := by
  refine ⟨nogosOf h, getNogos_wf h hh, nodup_firstOccFrom [] _, ?_, ?_⟩
  · intro n hn
    obtain ⟨g, hg, j, hj, _, hkey⟩ := (mem_nogos_iff h n).mp hn
    obtain ⟨b, hb, _, _, henc⟩ := word_at_wf h hh g hg j hj
    rw [hb, Option.map_some', henc] at hkey
    rw [← Option.some.inj hkey]
    rfl
  · intro c
    rw [mem_nogos_iff]
    constructor
    · rintro ⟨g, hg, j, hj, h46, hkey⟩
      obtain ⟨b, hb, _, _, henc⟩ := word_at_wf h hh g hg j hj
      rw [hb, Option.map_some', henc] at hkey
      have hbc : b = c := by simpa using hkey
      exact ⟨g, hg, j, hj, h46, hbc ▸ hb⟩
    · rintro ⟨g, hg, j, hj, h46, hc⟩
      obtain ⟨b, hb, _, _, henc⟩ := word_at_wf h hh g hg j hj
      have hbc : b = c := Option.some.inj (hb.symm.trans hc)
      refine ⟨g, hg, j, hj, h46, ?_⟩
      rw [hb, Option.map_some', henc, hbc]

/-- Witness of C7 on the example history. -/
theorem getNogos_spec_witness :
    WfHistory exHistory
      ∧ ∃ l, getNogos exHistory = some l ∧ l.Nodup ∧ (∀ n ∈ l, n.length = 1)
        ∧ ∀ c : Nat, [c] ∈ l
          ↔ ∃ g ∈ exHistory, ∃ j, j < 5 ∧ g.hits[j]? = some 46 ∧ g.word[j]? = some c :=
  ⟨by decide, getNogos_spec exHistory (by decide)⟩

/-- Claim C8. On a well-formed history `getGreens` returns a map with exactly
the keys 0..4; its value at `k` is `"-"` when no guess has feedback `g` at `k`,
and otherwise the letter at `k` of the last guess with feedback `g` at `k`. -/
theorem getGreens_spec (h : List guess) (hh : WfHistory h) :
    ∃ m, getGreens h = some m ∧ m.map Prod.fst = [0, 1, 2, 3, 4]
      ∧ ∀ (k : Nat) (v : Str), ((k : Int), v) ∈ m →
        ((∀ g ∈ h, g.hits[k]? ≠ some 103) → v = dash)
          ∧ (∀ pre g post, h = pre ++ g :: post → g.hits[k]? = some 103 →
              (∀ g2 ∈ post, g2.hits[k]? ≠ some 103) →
                ∃ b, g.word[k]? = some b ∧ v = [b]) := by
  refine ⟨greensOf h, getGreens_wf h hh, rfl, ?_⟩
  intro k v hmem
  obtain ⟨k2, hk2, hp⟩ := (mem_greensOf h _).mp hmem
  have hkk : k = k2 := by
    have := congrArg Prod.fst hp
    simpa using this
  have hv : v = greenAt h k2 := congrArg Prod.snd hp
  subst hkk
  constructor
  · intro hno
    rw [hv, greenAt_none h k hno]
  · intro pre g post hdec hg103 hpost
    have hgmem : g ∈ h := by
      rw [hdec]
      simp
    obtain ⟨b, hb, _, _, henc⟩ := word_at_wf h hh g hgmem k hk2
    refine ⟨b, hb, ?_⟩
    rw [hv, hdec, greenAt_last pre post g k hg103 hpost]
    simp [hb, henc]

/-- Witness of C8: two guesses with feedback `g` at position 0; the value of
the later one is kept. -/
theorem getGreens_spec_witness :
    WfHistory [⟨str "sound", str "g...."⟩, ⟨str "round", str "g...g"⟩]
      ∧ ∃ m, getGreens [⟨str "sound", str "g...."⟩, ⟨str "round", str "g...g"⟩] = some m
        ∧ m.map Prod.fst = [0, 1, 2, 3, 4]
        ∧ ∀ (k : Nat) (v : Str), ((k : Int), v) ∈ m →
          ((∀ g ∈ [(⟨str "sound", str "g...."⟩ : guess), ⟨str "round", str "g...g"⟩],
              g.hits[k]? ≠ some 103) → v = dash)
            ∧ (∀ pre g post,
                [(⟨str "sound", str "g...."⟩ : guess), ⟨str "round", str "g...g"⟩]
                  = pre ++ g :: post → g.hits[k]? = some 103 →
                (∀ g2 ∈ post, g2.hits[k]? ≠ some 103) →
                  ∃ b, g.word[k]? = some b ∧ v = [b]) :=
  ⟨by decide, getGreens_spec _ (by decide)⟩

/-- Claim C9. On a well-formed history `getYellows` returns a slice of exactly 5
entries; entry `j` is `"-"` when no guess has feedback `y` at `j`, and
otherwise a string without repeated character whose characters are exactly
the letters that some guess has at `j` with feedback `y`; a further guess
whose letters with feedback `y` are all recorded already, each at its
position, changes nothing. -/
theorem getYellows_spec (h : List guess) (hh : WfHistory h) :
    ∃ ys, getYellows h = some ys ∧ ys.length = 5
      ∧ (∀ j, j < 5 → ∃ y, ys[j]? = some y
        ∧ ((∀ g ∈ h, g.hits[j]? ≠ some 121) → y = dash)
        ∧ ((∃ g ∈ h, g.hits[j]? = some 121) →
            y.Nodup ∧ ∀ c, c ∈ y ↔ ∃ g ∈ h, g.hits[j]? = some 121 ∧ g.word[j]? = some c))
      ∧ ∀ g, WfGuess g →
          (∀ j, j < 5 → g.hits[j]? = some 121 →
            ∃ g2 ∈ h, g2.hits[j]? = some 121 ∧ g2.word[j]? = g.word[j]?) →
          getYellows (h ++ [g]) = some ys := by
  refine ⟨yellowsOf h, getYellows_wf h hh, rfl, ?_, ?_⟩
  · intro j hj
    refine ⟨fillDash (yellowAt h j), (getElem?_yellowsOf h j _).mpr ⟨hj, rfl⟩, ?_, ?_⟩
    · intro hno
      rcases fillDash_yellowAt h hh j hj with ⟨_, hd⟩ | ⟨⟨g, hg, h121⟩, _, _⟩
      · exact hd
      · exact absurd h121 (hno g hg)
    · rintro ⟨g, hg, h121⟩
      rcases fillDash_yellowAt h hh j hj with ⟨hno, _⟩ | ⟨_, hfill, _⟩
      · exact absurd h121 (hno g hg)
      · rw [hfill]
        exact ⟨nodup_yellowAt h hh j hj, fun c => mem_yellowAt h hh j hj c⟩
  · intro g hg hrec
    have hh2 : WfHistory (h ++ [g]) := by
      intro x hx
      rcases List.mem_append.mp hx with hx1 | hx1
      · exact hh x hx1
      · rw [List.mem_singleton.mp hx1]
        exact hg
    rw [getYellows_wf (h ++ [g]) hh2]
    unfold yellowsOf
    rw [yellowAt_append_recorded h hh g hg 0 (by omega) (hrec 0 (by omega)),
      yellowAt_append_recorded h hh g hg 1 (by omega) (hrec 1 (by omega)),
      yellowAt_append_recorded h hh g hg 2 (by omega) (hrec 2 (by omega)),
      yellowAt_append_recorded h hh g hg 3 (by omega) (hrec 3 (by omega)),
      yellowAt_append_recorded h hh g hg 4 (by omega) (hrec 4 (by omega))]

/-- Witness of C9 on the example history. -/
theorem getYellows_spec_witness :
    WfHistory exHistory
      ∧ ∃ ys, getYellows exHistory = some ys ∧ ys.length = 5
        ∧ (∀ j, j < 5 → ∃ y, ys[j]? = some y
          ∧ ((∀ g ∈ exHistory, g.hits[j]? ≠ some 121) → y = dash)
          ∧ ((∃ g ∈ exHistory, g.hits[j]? = some 121) →
              y.Nodup
                ∧ ∀ c, c ∈ y
                  ↔ ∃ g ∈ exHistory, g.hits[j]? = some 121 ∧ g.word[j]? = some c))
        ∧ ∀ g, WfGuess g →
            (∀ j, j < 5 → g.hits[j]? = some 121 →
              ∃ g2 ∈ exHistory, g2.hits[j]? = some 121 ∧ g2.word[j]? = g.word[j]?) →
            getYellows (exHistory ++ [g]) = some ys :=
  ⟨by decide, getYellows_spec exHistory (by decide)⟩

/-- Claim C1. For every well-formed history `h` and every list `ws` of words of
five lowercase letters, the pipeline of `main` returns a list, and a word `w`
is in it exactly when it is in `ws` and (i) no letter that a guess has at a
position with feedback `.` occurs in `w`, (ii) at every position `k` where some
guess has feedback `g`, `w` has the letter at `k` of the last such guess, and
(iii) every letter that a guess has at a position `j` with feedback `y` occurs
in `w` and is not the letter of `w` at `j`. -/
theorem pipeline_spec (h : List guess) (ws : List Str) (hh : WfHistory h)
    (hws : ∀ w ∈ ws, WfWord w) :
    ∃ out, pipeline h ws = some out ∧ ∀ w, w ∈ out ↔ w ∈ ws
      ∧ (∀ g ∈ h, ∀ j, j < 5 → g.hits[j]? = some 46 → ∀ b, g.word[j]? = some b → b ∉ w)
      ∧ (∀ k, k < 5 → ∀ pre g post, h = pre ++ g :: post → g.hits[k]? = some 103 →
          (∀ g2 ∈ post, g2.hits[k]? ≠ some 103) → w[k]? = g.word[k]?)
      ∧ (∀ g ∈ h, ∀ j, j < 5 → g.hits[j]? = some 121 →
          ∀ b, g.word[j]? = some b → b ∈ w ∧ w[j]? ≠ some b) := by
  refine ⟨_, pipeline_wf h ws hh (fun w hw => by rw [(hws w hw).1]), ?_⟩
  intro w
  rw [mem_firstOcc_filter, mem_firstOcc_filter, mem_firstOcc_filter, nogoPass_wf h hh,
    greenPass_wf h hh, yellowPass_wf h hh]
  simp only [and_assoc]

/-- Witness of C1 on the example history and word list. -/
theorem pipeline_spec_witness :
    WfHistory exHistory ∧ (∀ w ∈ exWords, WfWord w)
      ∧ ∃ out, pipeline exHistory exWords = some out ∧ ∀ w, w ∈ out ↔ w ∈ exWords
        ∧ (∀ g ∈ exHistory, ∀ j, j < 5 → g.hits[j]? = some 46 →
            ∀ b, g.word[j]? = some b → b ∉ w)
        ∧ (∀ k, k < 5 → ∀ pre g post, exHistory = pre ++ g :: post →
            g.hits[k]? = some 103 →
            (∀ g2 ∈ post, g2.hits[k]? ≠ some 103) → w[k]? = g.word[k]?)
        ∧ (∀ g ∈ exHistory, ∀ j, j < 5 → g.hits[j]? = some 121 →
            ∀ b, g.word[j]? = some b → b ∈ w ∧ w[j]? ≠ some b) :=
  ⟨by decide, by decide, pipeline_spec exHistory exWords (by decide) (by decide)⟩

/-! ## Scenarios -/

theorem pipeline_mem_wf (h : List guess) (ws : List Str) (hh : WfHistory h)
    (hws : ∀ w ∈ ws, 5 ≤ w.length) :
    ∃ out, pipeline h ws = some out ∧ out.Nodup ∧ ∀ w, w ∈ out ↔ w ∈ ws
      ∧ (∀ g ∈ h, ∀ j, j < 5 → g.hits[j]? = some 46 → ∀ b, g.word[j]? = some b → b ∉ w)
      ∧ (∀ k, k < 5 → ∀ pre g post, h = pre ++ g :: post → g.hits[k]? = some 103 →
          (∀ g2 ∈ post, g2.hits[k]? ≠ some 103) → w[k]? = g.word[k]?)
      ∧ (∀ g ∈ h, ∀ j, j < 5 → g.hits[j]? = some 121 →
          ∀ b, g.word[j]? = some b → b ∈ w ∧ w[j]? ≠ some b) := by
  refine ⟨_, pipeline_wf h ws hh hws, nodup_firstOccFrom [] _, ?_⟩
  intro w
  rw [mem_firstOcc_filter, mem_firstOcc_filter, mem_firstOcc_filter, nogoPass_wf h hh,
    greenPass_wf h hh, yellowPass_wf h hh]
  simp only [and_assoc]

theorem eq_singleton_or_nil (out : List Str) (a : Str) (P : Prop) [Decidable P]
    (hnd : out.Nodup) (hmem : ∀ w, w ∈ out ↔ P ∧ w = a) :
    out = if P then [a] else [] := by
  by_cases hP : P
  · rw [if_pos hP]
    have hperm : out.Perm [a] := by
      rw [List.perm_ext_iff_of_nodup hnd (List.nodup_singleton a)]
      intro w
      rw [hmem w, List.mem_singleton]
      exact ⟨fun hw => hw.2, fun hw => ⟨hP, hw⟩⟩
    exact List.perm_singleton.mp hperm
  · rw [if_neg hP]
    apply List.eq_nil_iff_forall_not_mem.mpr
    intro w hw
    exact hP ((hmem w).mp hw).1

/-- Claim C12, the counterexample. For the single guess `crane` with feedback
`..y..`, the letters of `getNogos` are not exactly `c`, `r`, `e`: `n`, at
position 3 with feedback `.`, is among them. -/
theorem crane_nogos_not_c_r_e :
    ¬ ∃ l, getNogos exHistory = some l
      ∧ ∀ n, n ∈ l ↔ n = str "c" ∨ n = str "r" ∨ n = str "e" := by
  rintro ⟨l, hl, hmem⟩
  have heval : getNogos exHistory = some [str "c", str "r", str "n", str "e"] := by decide
  rw [heval] at hl
  have hl2 := Option.some.inj hl
  subst hl2
  have hn := (hmem (str "n")).mp (by decide)
  revert hn
  decide

/-- Claim C12, as amended. For the single guess `crane` with feedback `..y..`,
`getNogos` yields exactly the letters `c`, `r`, `n`, `e`, `getGreens` is
unconstrained at every position, and `getYellows` holds exactly `a` at position
2 and is unconstrained at positions 0, 1, 3 and 4. -/
theorem crane_classification :
    getNogos exHistory = some [str "c", str "r", str "n", str "e"]
      ∧ getGreens exHistory = some [(0, dash), (1, dash), (2, dash), (3, dash), (4, dash)]
      ∧ getYellows exHistory = some [dash, dash, str "a", dash, dash] :=
  ⟨by decide, by decide, by decide⟩

/-- Claim C13, the counterexample. For the single guess `crane` with feedback
`..y..` and the word list `beast`, `apple`, `roads`, the pipeline does not
return the list holding `apple`. -/
theorem crane_scenario_not_apple : pipeline exHistory exScenario ≠ some [str "apple"] := by
  decide

/-- Claim C13, as amended. For the single guess `crane` with feedback `..y..`
and the word list `beast`, `apple`, `roads`, the pipeline returns the empty
list: the exclusion stage rejects all three words (`beast` and `apple` contain
`e`, `roads` contains `r`). -/
theorem crane_scenario_empty :
    pipeline exHistory exScenario = some []
      ∧ removeNogoLetters exScenario [str "c", str "r", str "n", str "e"] = [] :=
  ⟨by decide, by decide⟩

theorem wfHistory_all_green (g : Str) (hg : WfWord g) : WfHistory [⟨g, str "ggggg"⟩] := by
  intro x hx
  rw [List.mem_singleton.mp hx]
  have h1 : (str "ggggg").length = 5 := by decide
  have h2 : ∀ b ∈ str "ggggg", isFeedback b := by decide
  exact ⟨hg.1, h1, hg.2, h2⟩

theorem eq_of_getElem?_eq (w g : Str) (hw : w.length = 5) (hg : g.length = 5)
    (h : ∀ k, k < 5 → w[k]? = g[k]?) : w = g := by
  apply List.ext_getElem?
  intro k
  by_cases hk : k < 5
  · exact h k hk
  · rw [List.getElem?_eq_none (by omega), List.getElem?_eq_none (by omega)]

/-- Claim C14. For every word `g` of five lowercase letters, the history of the
single guess `g` with feedback `ggggg` gives the green map with the letter of
`g` at each of the positions 0..4, and for every list of 5-letter words the
pipeline returns the list holding `g` alone if `g` is in the list and the empty
list otherwise. -/
theorem all_green_scenario (g : Str) (ws : List Str) (hg : WfWord g)
    (hws : ∀ w ∈ ws, w.length = 5) :
    (∃ a b c d e, g = [a, b, c, d, e]
        ∧ getGreens [⟨g, str "ggggg"⟩] = some [(0, [a]), (1, [b]), (2, [c]), (3, [d]), (4, [e])])
      ∧ pipeline [⟨g, str "ggggg"⟩] ws = some (if g ∈ ws then [g] else []) := by
  have hh := wfHistory_all_green g hg
  have hstr : str "ggggg" = [103, 103, 103, 103, 103] := by decide
  constructor
  · obtain ⟨hlen, hlow⟩ := hg
    match g, hlen, hlow with
    | [a, b, c, d, e], _, hlow =>
      refine ⟨a, b, c, d, e, rfl, ?_⟩
      have hwf : WfWord [a, b, c, d, e] := ⟨rfl, hlow⟩
      rw [getGreens_wf _ (wfHistory_all_green _ hwf)]
      have ha := (hlow a (by simp)).2
      have hb := (hlow b (by simp)).2
      have hc := (hlow c (by simp)).2
      have hd := (hlow d (by simp)).2
      have he := (hlow e (by simp)).2
      simp [greensOf, greenAt, greenUpd, hstr,
        encodeRune_ascii (by omega : a < 128), encodeRune_ascii (by omega : b < 128),
        encodeRune_ascii (by omega : c < 128), encodeRune_ascii (by omega : d < 128),
        encodeRune_ascii (by omega : e < 128)]
  · obtain ⟨out, hout, hnd, hmem⟩ :=
      pipeline_mem_wf [⟨g, str "ggggg"⟩] ws hh (fun w hw => by rw [hws w hw])
    rw [hout]
    refine congrArg some (eq_singleton_or_nil out g (g ∈ ws) hnd ?_)
    intro w
    rw [hmem w]
    constructor
    · rintro ⟨hw, _, hgreen, _⟩
      have hwg : w = g := by
        apply eq_of_getElem?_eq w g (hws w hw) hg.1
        intro k hk
        have hk103 : (str "ggggg")[k]? = some 103 := by
          rw [hstr]
          interval_cases k <;> rfl
        exact hgreen k hk [] ⟨g, str "ggggg"⟩ [] rfl hk103 (by simp)
      exact ⟨hwg ▸ hw, hwg⟩
    · rintro ⟨hgw, rfl⟩
      refine ⟨hgw, ?_, ?_, ?_⟩
      · intro x hx j hj h46
        rw [List.mem_singleton.mp hx] at h46
        rw [hstr] at h46
        interval_cases j <;> simp at h46
      · intro k _ pre x post hdec _ _
        have hx : x ∈ [(⟨w, str "ggggg"⟩ : guess)] := by
          rw [hdec]
          simp
        rw [List.mem_singleton.mp hx]
      · intro x hx j hj h121
        rw [List.mem_singleton.mp hx] at h121
        rw [hstr] at h121
        interval_cases j <;> simp at h121

/-- Witness of C14: the guess `sound` with the list `sound`, `round`, `found`
yields the list holding `sound` alone. -/
theorem all_green_scenario_witness :
    WfWord (str "sound") ∧ (∀ w ∈ [str "sound", str "round", str "found"], w.length = 5)
      ∧ pipeline [⟨str "sound", str "ggggg"⟩] [str "sound", str "round", str "found"]
        = some [str "sound"] :=
  ⟨by decide, by decide,
    (all_green_scenario (str "sound") [str "sound", str "round", str "found"]
      (by decide) (by decide)).2.trans (by decide)⟩

/-- Claim C15. For every well-formed history whose feedback strings are all
`.....` and every list of 5-letter words each of which contains a letter of
some guessed word, the pipeline returns the empty list, as an ordinary
result. -/
theorem exhaustion_is_empty (h : List guess) (ws : List Str) (hh : WfHistory h)
    (hdots : ∀ g ∈ h, g.hits = str ".....") (hws : ∀ w ∈ ws, w.length = 5)
    (hcov : ∀ w ∈ ws, ∃ g ∈ h, ∃ b ∈ g.word, b ∈ w) :
    pipeline h ws = some [] := by
  obtain ⟨out, hout, _, hmem⟩ := pipeline_mem_wf h ws hh (fun w hw => by rw [hws w hw])
  rw [hout]
  refine congrArg some (List.eq_nil_iff_forall_not_mem.mpr ?_)
  intro w hw
  obtain ⟨hwws, hno, _, _⟩ := (hmem w).mp hw
  obtain ⟨g, hg, b, hb, hbw⟩ := hcov w hwws
  obtain ⟨j, hj⟩ := List.mem_iff_getElem?.mp hb
  obtain ⟨hlt, _⟩ := List.getElem?_eq_some.mp hj
  have hj5 : j < 5 := by
    have := (hh g hg).1
    omega
  have h46 : g.hits[j]? = some 46 := by
    rw [hdots g hg]
    have hstr : str "....." = [46, 46, 46, 46, 46] := by decide
    rw [hstr]
    interval_cases j <;> rfl
  exact hno g hg j hj5 h46 b hj hbw

/-- Witness of C15: five guesses with feedback `.....` and two words that use
their letters. -/
theorem exhaustion_is_empty_witness :
    WfHistory [⟨str "crane", str "....."⟩, ⟨str "moist", str "....."⟩,
        ⟨str "plumb", str "....."⟩, ⟨str "dwyfk", str "....."⟩, ⟨str "vexgh", str "....."⟩]
      ∧ pipeline [⟨str "crane", str "....."⟩, ⟨str "moist", str "....."⟩,
        ⟨str "plumb", str "....."⟩, ⟨str "dwyfk", str "....."⟩, ⟨str "vexgh", str "....."⟩]
        [str "roads", str "apple"] = some [] :=
  ⟨by decide,
    exhaustion_is_empty _ [str "roads", str "apple"] (by decide) (by decide) (by decide)
      (by decide)⟩

/-- Claim C17. For every well-formed history in which some guess has the same
letter `c` at two positions, one with feedback `.` and the other with feedback
`g` or `y`, and every list of 5-letter words, `c` is among the letters of
`getNogos` and no word containing `c` is in the output of the pipeline. -/
theorem duplicate_letter_excluded (h : List guess) (ws : List Str) (c : Nat)
    (hh : WfHistory h) (hws : ∀ w ∈ ws, w.length = 5)
    (hdup : ∃ g ∈ h, ∃ i j, i < 5 ∧ j < 5 ∧ i ≠ j ∧ g.word[i]? = some c ∧ g.word[j]? = some c
      ∧ g.hits[i]? = some 46 ∧ (g.hits[j]? = some 103 ∨ g.hits[j]? = some 121)) :
    (∃ l, getNogos h = some l ∧ [c] ∈ l)
      ∧ ∃ out, pipeline h ws = some out ∧ ∀ w, c ∈ w → w ∉ out := by
  obtain ⟨g, hg, i, j, hi, _, _, hci, _, h46, _⟩ := hdup
  constructor
  · refine ⟨nogosOf h, getNogos_wf h hh, (mem_nogos_iff h [c]).mpr ⟨g, hg, i, hi, h46, ?_⟩⟩
    obtain ⟨b, hb, _, _, henc⟩ := word_at_wf h hh g hg i hi
    have hbc : b = c := Option.some.inj (hb.symm.trans hci)
    rw [hb, Option.map_some', henc, hbc]
  · obtain ⟨out, hout, _, hmem⟩ := pipeline_mem_wf h ws hh (fun w hw => by rw [hws w hw])
    refine ⟨out, hout, fun w hcw hw => ?_⟩
    exact ((hmem w).mp hw).2.1 g hg i hi h46 c hci hcw

/-- Witness of C17: the guess `geese` with feedback `.g...` has `e` at position 1
with `g` and at position 2 with `.`. -/
theorem duplicate_letter_excluded_witness :
    WfHistory [⟨str "geese", str ".g..."⟩]
      ∧ (∀ w ∈ [str "hello", str "world"], w.length = 5)
      ∧ ((∃ l, getNogos [⟨str "geese", str ".g..."⟩] = some l ∧ [101] ∈ l)
        ∧ ∃ out, pipeline [⟨str "geese", str ".g..."⟩] [str "hello", str "world"] = some out
          ∧ ∀ w, 101 ∈ w → w ∉ out) :=
  ⟨by decide, by decide,
    duplicate_letter_excluded [⟨str "geese", str ".g..."⟩] [str "hello", str "world"] 101
      (by decide) (by decide)
      ⟨⟨str "geese", str ".g..."⟩, by decide, 2, 1, by decide, by decide, by decide,
        by decide, by decide, by decide, Or.inl (by decide)⟩⟩

theorem getElem?_score (s word : Str) (j : Nat) :
    (score s word)[j]? = word[j]?.map (fun b => scoreAt s b j) := by
  unfold score
  rw [List.getElem?_map, List.getElem?_enum]
  cases word[j]? <;> rfl

theorem scoreAt_feedback (s : Str) (b j : Nat) : isFeedback (scoreAt s b j) := by
  unfold scoreAt isFeedback
  split_ifs <;> simp

theorem wfHistory_of_score (s : Str) (h : List guess)
    (hh : ∀ g ∈ h, WfWord g.word ∧ g.word.Nodup ∧ g.hits = score s g.word) : WfHistory h := by
  intro g hg
  obtain ⟨hw, _, hsc⟩ := hh g hg
  refine ⟨hw.1, ?_, hw.2, ?_⟩
  · rw [hsc]
    simp [score, hw.1]
  · intro b hb
    rw [hsc] at hb
    obtain ⟨p, _, rfl⟩ := List.mem_map.mp hb
    exact scoreAt_feedback s p.2 p.1

/-- Claim C18. For every secret `s`, every history in which each guess has five
pairwise distinct lowercase letters and carries the scoring of the game against
`s` as feedback, and every list of 5-letter words containing `s` (so `s` is a
5-letter word), the pipeline returns a list that contains `s`. -/
theorem secret_survives (s : Str) (h : List guess) (ws : List Str)
    (hh : ∀ g ∈ h, WfWord g.word ∧ g.word.Nodup ∧ g.hits = score s g.word)
    (hws : ∀ w ∈ ws, w.length = 5) (hmem : s ∈ ws) :
    ∃ out, pipeline h ws = some out ∧ s ∈ out := by
  have hwf := wfHistory_of_score s h hh
  obtain ⟨out, hout, _, hiff⟩ := pipeline_mem_wf h ws hwf (fun w hw => by rw [hws w hw])
  have hsc : ∀ g ∈ h, ∀ j b, g.word[j]? = some b → g.hits[j]? = some (scoreAt s b j) := by
    intro g hg j b hb
    rw [(hh g hg).2.2, getElem?_score, hb]
    rfl
  refine ⟨out, hout, (hiff s).mpr ⟨hmem, ?_, ?_, ?_⟩⟩
  · intro g hg j _ h46 b hb
    have := (hsc g hg j b hb).symm.trans h46
    unfold scoreAt at this
    split_ifs at this with h1 h2
    · simp at this
    · simp at this
    · exact h2
  · intro k _ pre g post hdec h103 _
    have hg : g ∈ h := by
      rw [hdec]
      simp
    cases hb : g.word[k]? with
    | none =>
      rw [(hh g hg).2.2, getElem?_score, hb] at h103
      simp at h103
    | some b =>
      have := (hsc g hg k b hb).symm.trans h103
      unfold scoreAt at this
      split_ifs at this with h1 h2
      · exact h1
      · simp at this
      · simp at this
  · intro g hg j _ h121 b hb
    have := (hsc g hg j b hb).symm.trans h121
    unfold scoreAt at this
    split_ifs at this with h1 h2
    · simp at this
    · exact ⟨h2, h1⟩
    · simp at this

/-- Witness of C18: the secret `moist` with the guesses `crane` and `stomp`. -/
theorem secret_survives_witness :
    WfWord (str "moist")
      ∧ (∀ g ∈ [(⟨str "crane", str "....."⟩ : guess), ⟨str "stomp", str "yyyy."⟩],
          WfWord g.word ∧ g.word.Nodup ∧ g.hits = score (str "moist") g.word)
      ∧ ∃ out, pipeline [⟨str "crane", str "....."⟩, ⟨str "stomp", str "yyyy."⟩]
          [str "roads", str "moist", str "hoist"] = some out ∧ str "moist" ∈ out :=
  ⟨by decide, by decide,
    secret_survives (str "moist") _ [str "roads", str "moist", str "hoist"]
      (by decide) (by decide) (by decide)⟩

/-- Claim C19. For every well-formed history in which some letter `c` has
feedback `.` at some position of some guess and also either has feedback `y`
at some position of some guess or is the value of some position in the map of
`getGreens`, the pipeline returns the empty list for every list of 5-letter
words. -/
theorem contradictory_feedback_empty (h : List guess) (ws : List Str) (c : Nat)
    (hh : WfHistory h) (hws : ∀ w ∈ ws, w.length = 5)
    (hdot : ∃ g ∈ h, ∃ j, j < 5 ∧ g.hits[j]? = some 46 ∧ g.word[j]? = some c)
    (hcon : (∃ g ∈ h, ∃ j, j < 5 ∧ g.hits[j]? = some 121 ∧ g.word[j]? = some c)
      ∨ ∃ m, getGreens h = some m ∧ ∃ k, (k, [c]) ∈ m) :
    pipeline h ws = some [] := by
  obtain ⟨out, hout, _, hmem⟩ := pipeline_mem_wf h ws hh (fun w hw => by rw [hws w hw])
  rw [hout]
  refine congrArg some (List.eq_nil_iff_forall_not_mem.mpr ?_)
  intro w hw
  obtain ⟨_, hno, hgreen, hyel⟩ := (hmem w).mp hw
  obtain ⟨g, hg, j, hj, h46, hcj⟩ := hdot
  have hcw : c ∉ w := hno g hg j hj h46 c hcj
  have hlow : isLower c := by
    obtain ⟨b, hb, hl, _, _⟩ := word_at_wf h hh g hg j hj
    exact (Option.some.inj (hb.symm.trans hcj)) ▸ hl
  rcases hcon with ⟨g2, hg2, j2, hj2, h121, hc2⟩ | ⟨m, hm, k, hk⟩
  · exact hcw (hyel g2 hg2 j2 hj2 h121 c hc2).1
  · rw [getGreens_wf h hh] at hm
    rw [← Option.some.inj hm] at hk
    obtain ⟨k2, hk2, hp⟩ := (mem_greensOf h _).mp hk
    have hval : [c] = greenAt h k2 := congrArg Prod.snd hp
    rcases greenAt_cases h hh k2 hk2 with ⟨_, hd⟩ | ⟨pre, g3, post, b, hdec, h103, hpost, hb, _, hat⟩
    · have h45 : c = 45 := by simpa [dash] using hval.trans hd
      have := hlow.1
      omega
    · have hcb : c = b := by simpa using hval.trans hat
      have hwk := hgreen k2 hk2 pre g3 post hdec h103 hpost
      rw [hb, ← hcb] at hwk
      exact hcw (List.getElem?_mem hwk)

/-- Witness of C19: `a` has feedback `.` in the first guess and `y` in the second. -/
theorem contradictory_feedback_empty_witness :
    WfHistory [⟨str "crane", str "....."⟩, ⟨str "solar", str "...y."⟩]
      ∧ pipeline [⟨str "crane", str "....."⟩, ⟨str "solar", str "...y."⟩]
        [str "moist", str "toady"] = some [] :=
  ⟨by decide,
    contradictory_feedback_empty _ [str "moist", str "toady"] 97 (by decide) (by decide)
      ⟨⟨str "crane", str "....."⟩, by decide, 2, by decide, by decide, by decide⟩
      (Or.inl ⟨⟨str "solar", str "...y."⟩, by decide, 3, by decide, by decide, by decide⟩)⟩

/-! ## Order of the guesses -/

theorem wfHistory_perm (h1 h2 : List guess) (hperm : h1.Perm h2) (hh : WfHistory h1) :
    WfHistory h2 :=
  fun g hg => hh g (hperm.mem_iff.mpr hg)

theorem greenAt_perm (h1 h2 : List guess) (hperm : h1.Perm h2) (hh : WfHistory h1) (k : Nat)
    (hk : k < 5)
    (hagree : ∀ g ∈ h1, ∀ g2 ∈ h1, g.hits[k]? = some 103 → g2.hits[k]? = some 103 →
      g.word[k]? = g2.word[k]?) :
    greenAt h1 k = greenAt h2 k := by
  have hh2 := wfHistory_perm h1 h2 hperm hh
  rcases greenAt_cases h1 hh k hk with ⟨hno1, hd1⟩ | ⟨pre1, g1, post1, b1, hdec1, hg1, _, hb1, _, hat1⟩
  · rcases greenAt_cases h2 hh2 k hk with ⟨_, hd2⟩ | ⟨pre2, g2, post2, b2, hdec2, hg2, _, _, _, _⟩
    · rw [hd1, hd2]
    · have hmem2 : g2 ∈ h2 := by
        rw [hdec2]
        simp
      exact absurd hg2 (hno1 g2 (hperm.mem_iff.mpr hmem2))
  · have hmem1 : g1 ∈ h1 := by
      rw [hdec1]
      simp
    rcases greenAt_cases h2 hh2 k hk with ⟨hno2, _⟩ | ⟨pre2, g2, post2, b2, hdec2, hg2, _, hb2, _, hat2⟩
    · exact absurd hg1 (hno2 g1 (hperm.mem_iff.mp hmem1))
    · have hmem2 : g2 ∈ h2 := by
        rw [hdec2]
        simp
      have hw := hagree g1 hmem1 g2 (hperm.mem_iff.mpr hmem2) hg1 hg2
      rw [hb1, hb2] at hw
      rw [hat1, hat2, Option.some.inj hw]

theorem mem_greensOf_natCast (h : List guess) (k : Nat) (hk : k < 5) (v : Str) :
    ((k : Int), v) ∈ greensOf h ↔ v = greenAt h k := by
  rw [mem_greensOf]
  constructor
  · rintro ⟨k2, _, hp⟩
    have hkk : k = k2 := by
      have := congrArg Prod.fst hp
      simpa using this
    rw [hkk]
    exact congrArg Prod.snd hp
  · intro hv
    exact ⟨k, hk, by rw [hv]⟩

theorem nogoPass_perm (h1 h2 : List guess) (hperm : h1.Perm h2) (hh : WfHistory h1) :
    nogoPass (nogosOf h1) = nogoPass (nogosOf h2) := by
  funext w
  rw [Bool.eq_iff_iff, nogoPass_wf h1 hh, nogoPass_wf h2 (wfHistory_perm h1 h2 hperm hh)]
  exact ⟨fun hall g hg => hall g (hperm.mem_iff.mpr hg),
    fun hall g hg => hall g (hperm.mem_iff.mp hg)⟩

theorem yellowPass_perm (h1 h2 : List guess) (hperm : h1.Perm h2) (hh : WfHistory h1) :
    yellowPass (yellowsOf h1) = yellowPass (yellowsOf h2) := by
  funext w
  rw [Bool.eq_iff_iff, yellowPass_wf h1 hh, yellowPass_wf h2 (wfHistory_perm h1 h2 hperm hh)]
  exact ⟨fun hall g hg => hall g (hperm.mem_iff.mpr hg),
    fun hall g hg => hall g (hperm.mem_iff.mp hg)⟩

theorem yellowEntry_perm (h1 h2 : List guess) (hperm : h1.Perm h2) (hh : WfHistory h1)
    (j : Nat) (hj : j < 5) :
    (fillDash (yellowAt h1 j) = dash ↔ fillDash (yellowAt h2 j) = dash)
      ∧ ∀ c, c ∈ fillDash (yellowAt h1 j) ↔ c ∈ fillDash (yellowAt h2 j) := by
  have hh2 := wfHistory_perm h1 h2 hperm hh
  rcases fillDash_yellowAt h1 hh j hj with ⟨hno1, hd1⟩ | ⟨⟨g1, hg1, h121⟩, hfill1, hne1⟩
  · rcases fillDash_yellowAt h2 hh2 j hj with ⟨_, hd2⟩ | ⟨⟨g2, hg2, h122⟩, _, _⟩
    · rw [hd1, hd2]
      exact ⟨Iff.rfl, fun _ => Iff.rfl⟩
    · exact absurd h122 (hno1 g2 (hperm.mem_iff.mpr hg2))
  · rcases fillDash_yellowAt h2 hh2 j hj with ⟨hno2, _⟩ | ⟨_, hfill2, hne2⟩
    · exact absurd h121 (hno2 g1 (hperm.mem_iff.mp hg1))
    · rw [hfill1, hfill2]
      refine ⟨⟨fun hd => absurd hd hne1, fun hd => absurd hd hne2⟩, fun c => ?_⟩
      rw [mem_yellowAt h1 hh j hj, mem_yellowAt h2 hh2 j hj]
      constructor
      · rintro ⟨g, hg, hx⟩
        exact ⟨g, hperm.mem_iff.mp hg, hx⟩
      · rintro ⟨g, hg, hx⟩
        exact ⟨g, hperm.mem_iff.mpr hg, hx⟩

/-- Claim C16. For two well-formed histories that are permutations of one
another, `getNogos` returns the same set of letters, `getYellows` returns the
same set of letters at every position, with the same positions unconstrained,
and `getGreens` agrees at every position at which no two guesses carry feedback
`g` with different letters; so the exclusion stage and the
present-wrong-position stage return the same output for both histories on
every list of 5-letter words. -/
theorem classification_order_independent (h1 h2 : List guess) (hperm : h1.Perm h2)
    (hh : WfHistory h1) :
    ∃ n1 n2 m1 m2 y1 y2, getNogos h1 = some n1 ∧ getNogos h2 = some n2
      ∧ getGreens h1 = some m1 ∧ getGreens h2 = some m2
      ∧ getYellows h1 = some y1 ∧ getYellows h2 = some y2
      ∧ (∀ n, n ∈ n1 ↔ n ∈ n2)
      ∧ (∀ j, j < 5 → ∃ a b, y1[j]? = some a ∧ y2[j]? = some b
          ∧ (a = dash ↔ b = dash) ∧ ∀ c, c ∈ a ↔ c ∈ b)
      ∧ (∀ k : Nat, k < 5 →
          (∀ g ∈ h1, ∀ g2 ∈ h1, g.hits[k]? = some 103 → g2.hits[k]? = some 103 →
            g.word[k]? = g2.word[k]?) →
          ∀ v, ((k : Int), v) ∈ m1 ↔ ((k : Int), v) ∈ m2)
      ∧ ∀ ws : List Str, (∀ w ∈ ws, w.length = 5) →
          removeNogoLetters ws n1 = removeNogoLetters ws n2
            ∧ ∃ out, removeYellowMatches ws y1 = some out
              ∧ removeYellowMatches ws y2 = some out := by
  have hh2 := wfHistory_perm h1 h2 hperm hh
  refine ⟨nogosOf h1, nogosOf h2, greensOf h1, greensOf h2, yellowsOf h1, yellowsOf h2,
    getNogos_wf h1 hh, getNogos_wf h2 hh2, getGreens_wf h1 hh, getGreens_wf h2 hh2,
    getYellows_wf h1 hh, getYellows_wf h2 hh2, ?_, ?_, ?_, ?_⟩
  · intro n
    rw [mem_nogos_iff, mem_nogos_iff]
    constructor
    · rintro ⟨g, hg, hx⟩
      exact ⟨g, hperm.mem_iff.mp hg, hx⟩
    · rintro ⟨g, hg, hx⟩
      exact ⟨g, hperm.mem_iff.mpr hg, hx⟩
  · intro j hj
    obtain ⟨hd, hc⟩ := yellowEntry_perm h1 h2 hperm hh j hj
    exact ⟨_, _, (getElem?_yellowsOf h1 j _).mpr ⟨hj, rfl⟩,
      (getElem?_yellowsOf h2 j _).mpr ⟨hj, rfl⟩, hd, hc⟩
  · intro k hk hagree v
    rw [mem_greensOf_natCast h1 k hk, mem_greensOf_natCast h2 k hk,
      greenAt_perm h1 h2 hperm hh k hk hagree]
  · intro ws hws
    constructor
    · rw [removeNogoLetters_eq, removeNogoLetters_eq, nogoPass_perm h1 h2 hperm hh]
    · have hidx : ∀ h : List guess, ∀ w ∈ ws, ∀ p ∈ (yellowsOf h).enum, p.2 ≠ dash →
          p.1 < w.length := by
        intro h w hw p hp _
        have hp2 := List.mem_enum_iff_getElem?.mp hp
        have hp3 := ((getElem?_yellowsOf h p.1 p.2).mp hp2).1
        have := hws w hw
        omega
      refine ⟨_, removeYellowMatches_some ws _ (hidx h1), ?_⟩
      rw [removeYellowMatches_some ws _ (hidx h2), yellowPass_perm h1 h2 hperm hh]

/-- Witness of C16: two guesses with feedback `g` at position 0 for different
letters, in both orders. -/
theorem classification_order_independent_witness :
    [(⟨str "sound", str "g.y.."⟩ : guess), ⟨str "round", str "g...y"⟩].Perm
        [⟨str "round", str "g...y"⟩, ⟨str "sound", str "g.y.."⟩]
      ∧ WfHistory [⟨str "sound", str "g.y.."⟩, ⟨str "round", str "g...y"⟩]
      ∧ ∃ n1 n2 m1 m2 y1 y2,
        getNogos [⟨str "sound", str "g.y.."⟩, ⟨str "round", str "g...y"⟩] = some n1
        ∧ getNogos [⟨str "round", str "g...y"⟩, ⟨str "sound", str "g.y.."⟩] = some n2
        ∧ getGreens [⟨str "sound", str "g.y.."⟩, ⟨str "round", str "g...y"⟩] = some m1
        ∧ getGreens [⟨str "round", str "g...y"⟩, ⟨str "sound", str "g.y.."⟩] = some m2
        ∧ getYellows [⟨str "sound", str "g.y.."⟩, ⟨str "round", str "g...y"⟩] = some y1
        ∧ getYellows [⟨str "round", str "g...y"⟩, ⟨str "sound", str "g.y.."⟩] = some y2
        ∧ (∀ n, n ∈ n1 ↔ n ∈ n2)
        ∧ (∀ j, j < 5 → ∃ a b, y1[j]? = some a ∧ y2[j]? = some b
            ∧ (a = dash ↔ b = dash) ∧ ∀ c, c ∈ a ↔ c ∈ b)
        ∧ (∀ k : Nat, k < 5 →
            (∀ g ∈ [(⟨str "sound", str "g.y.."⟩ : guess), ⟨str "round", str "g...y"⟩],
              ∀ g2 ∈ [(⟨str "sound", str "g.y.."⟩ : guess), ⟨str "round", str "g...y"⟩],
              g.hits[k]? = some 103 → g2.hits[k]? = some 103 → g.word[k]? = g2.word[k]?) →
            ∀ v, ((k : Int), v) ∈ m1 ↔ ((k : Int), v) ∈ m2)
        ∧ ∀ ws : List Str, (∀ w ∈ ws, w.length = 5) →
            removeNogoLetters ws n1 = removeNogoLetters ws n2
              ∧ ∃ out, removeYellowMatches ws y1 = some out
                ∧ removeYellowMatches ws y2 = some out :=
  ⟨List.Perm.swap _ _ _, by decide,
    classification_order_independent _ _ (List.Perm.swap _ _ _) (by decide)⟩

/-! ## When classification panics -/

/-- A loop whose body fails exactly on the bad elements, whatever the state,
fails exactly when the list has a bad element. -/
theorem foldlM_bad {σ ι : Type} (f : σ → ι → Option σ) (bad : ι → Prop) (Inv : σ → Prop)
    (l : List ι)
    (hbad : ∀ x ∈ l, bad x → ∀ st, Inv st → f st x = none)
    (hok : ∀ x ∈ l, ¬ bad x → ∀ st, Inv st → ∃ st2, f st x = some st2 ∧ Inv st2)
    (st : σ) (hst : Inv st) :
    ((∃ x ∈ l, bad x) → l.foldlM f st = none)
      ∧ ((∀ x ∈ l, ¬ bad x) → ∃ st2, l.foldlM f st = some st2 ∧ Inv st2) := by
  induction l generalizing st with
  | nil =>
    refine ⟨?_, fun _ => ⟨st, rfl, hst⟩⟩
    rintro ⟨x, hx, _⟩
    cases hx
  | cons a l ih =>
    have hbad2 : ∀ x ∈ l, bad x → ∀ st, Inv st → f st x = none :=
      fun x hx => hbad x (List.mem_cons_of_mem _ hx)
    have hok2 : ∀ x ∈ l, ¬ bad x → ∀ st, Inv st → ∃ st2, f st x = some st2 ∧ Inv st2 :=
      fun x hx => hok x (List.mem_cons_of_mem _ hx)
    rw [List.foldlM_cons]
    by_cases ha : bad a
    · rw [hbad a (List.mem_cons_self _ _) ha st hst]
      exact ⟨fun _ => rfl, fun hall => absurd ha (hall a (List.mem_cons_self _ _))⟩
    · obtain ⟨st2, h2, hinv2⟩ := hok a (List.mem_cons_self _ _) ha st hst
      rw [h2]
      obtain ⟨ih1, ih2⟩ := ih hbad2 hok2 st2 hinv2
      constructor
      · rintro ⟨x, hx, hbx⟩
        rcases List.mem_cons.mp hx with rfl | hx2
        · exact absurd hbx ha
        · exact ih1 ⟨x, hx2, hbx⟩
      · intro hall
        exact ih2 (fun x hx => hall x (List.mem_cons_of_mem _ hx))

theorem foldlM_none_iff {σ ι : Type} (f : σ → ι → Option σ) (bad : ι → Prop) (Inv : σ → Prop)
    (l : List ι)
    (hbad : ∀ x ∈ l, bad x → ∀ st, Inv st → f st x = none)
    (hok : ∀ x ∈ l, ¬ bad x → ∀ st, Inv st → ∃ st2, f st x = some st2 ∧ Inv st2)
    (st : σ) (hst : Inv st) :
    l.foldlM f st = none ↔ ∃ x ∈ l, bad x := by
  obtain ⟨h1, h2⟩ := foldlM_bad f bad Inv l hbad hok st hst
  constructor
  · intro hnone
    by_contra hex
    obtain ⟨st2, hsome, _⟩ := h2 (fun x hx hbx => hex ⟨x, hx, hbx⟩)
    rw [hnone] at hsome
    cases hsome
  · exact h1

theorem getElem?_of_lt (s : Str) (j : Nat) (hj : j < s.length) : ∃ b, s[j]? = some b :=
  ⟨s[j], List.getElem?_eq_getElem hj⟩

theorem nogoStep_bad (g : guess) (j : Nat) (hbad : stepPanics 46 g j) (st : Acc) :
    nogoStep g st j = none := by
  unfold nogoStep
  rcases hbad with hlen | ⟨h46, hlen⟩
  · rw [List.getElem?_eq_none hlen]
  · rw [h46, List.getElem?_eq_none hlen]
    simp [dot, encodeRune]

theorem nogoStep_ok (g : guess) (j : Nat) (hok : ¬ stepPanics 46 g j) (st : Acc) :
    ∃ st2, nogoStep g st j = some st2 ∧ True := by
  unfold stepPanics at hok
  have hlt : j < g.hits.length := by
    by_contra hge
    exact hok (Or.inl (by omega))
  obtain ⟨sc, hsc⟩ := getElem?_of_lt g.hits j hlt
  unfold nogoStep
  rw [hsc]
  by_cases h46 : sc = 46
  · have hltw : j < g.word.length := by
      by_contra hge
      exact hok (Or.inr ⟨h46 ▸ hsc, by omega⟩)
    obtain ⟨b, hb⟩ := getElem?_of_lt g.word j hltw
    simp [h46, hb, dot, encodeRune]
  · have hne : encodeRune sc ≠ dot := fun he => h46 (encodeRune_eq_singleton he).1
    simp [hne]

theorem getNogos_fail (h : List guess) :
    ((∃ g ∈ h, ∃ j ∈ List.range 5, stepPanics 46 g j) → getNogos h = none)
      ∧ ((∀ g ∈ h, ¬ ∃ j ∈ List.range 5, stepPanics 46 g j) → ∃ l, getNogos h = some l) := by
  have hinner : ∀ (g : guess) (st : Acc),
      ((∃ j ∈ List.range 5, stepPanics 46 g j) → (List.range 5).foldlM (nogoStep g) st = none)
        ∧ ((∀ j ∈ List.range 5, ¬ stepPanics 46 g j) →
          ∃ st2, (List.range 5).foldlM (nogoStep g) st = some st2 ∧ True) :=
    fun g st => foldlM_bad (nogoStep g) (stepPanics 46 g) (fun _ => True) (List.range 5)
      (fun j _ hb st _ => nogoStep_bad g j hb st) (fun j _ hb st _ => nogoStep_ok g j hb st)
      st trivial
  obtain ⟨h1, h2⟩ := foldlM_bad
    (fun st g => (List.range 5).foldlM (nogoStep g) st)
    (fun g => ∃ j ∈ List.range 5, stepPanics 46 g j) (fun _ => True) h
    (fun g _ hb st _ => (hinner g st).1 hb)
    (fun g _ hb st _ => (hinner g st).2 (fun j hj hbj => hb ⟨j, hj, hbj⟩))
    (([], []) : Acc) trivial
  unfold getNogos
  constructor
  · intro hex
    rw [h1 hex]
    rfl
  · intro hall
    obtain ⟨st2, hst2, _⟩ := h2 hall
    rw [hst2]
    exact ⟨_, rfl⟩

theorem yellowAdd_bad (g : guess) (j : Nat) (hbad : stepPanics 121 g j) (st : List Str) :
    yellowAdd g st j = none := by
  unfold yellowAdd
  rcases hbad with hlen | ⟨h121, hlen⟩
  · rw [List.getElem?_eq_none hlen]
  · rw [h121, List.getElem?_eq_none hlen]
    simp [why, encodeRune]

theorem yellowAdd_ok (g : guess) (j : Nat) (hj : j < 5) (hok : ¬ stepPanics 121 g j)
    (st : List Str) (hst : st.length = 5) :
    ∃ st2, yellowAdd g st j = some st2 ∧ st2.length = 5 := by
  unfold stepPanics at hok
  have hlt : j < g.hits.length := by
    by_contra hge
    exact hok (Or.inl (by omega))
  obtain ⟨sc, hsc⟩ := getElem?_of_lt g.hits j hlt
  obtain ⟨y, hy⟩ : ∃ y, st[j]? = some y := ⟨st[j], List.getElem?_eq_getElem (by omega)⟩
  unfold yellowAdd
  rw [hsc]
  by_cases h121 : sc = 121
  · have hltw : j < g.word.length := by
      by_contra hge
      exact hok (Or.inr ⟨h121 ▸ hsc, by omega⟩)
    obtain ⟨b, hb⟩ := getElem?_of_lt g.word j hltw
    have henc : encodeRune 121 = why := rfl
    by_cases hc : Contains y (encodeRune b) = true
    · simp [h121, hb, hy, hc, henc, hst]
    · simp [h121, hb, hy, hc, henc, hst]
  · have hne : encodeRune sc ≠ why := fun he => h121 (encodeRune_eq_singleton he).1
    simp [hne, hst]

theorem yellowFill_ok (j : Nat) (hj : j < 5) (st : List Str) (hst : st.length = 5) :
    ∃ st2, yellowFill st j = some st2 ∧ st2.length = 5 := by
  obtain ⟨y, hy⟩ : ∃ y, st[j]? = some y := ⟨st[j], List.getElem?_eq_getElem (by omega)⟩
  unfold yellowFill
  rw [hy]
  by_cases hnil : y = []
  · simp [hnil, hst]
  · simp [hnil, hst]

theorem getYellows_fail (h : List guess) :
    ((∃ g ∈ h, ∃ j ∈ List.range 5, stepPanics 121 g j) → getYellows h = none)
      ∧ ((∀ g ∈ h, ¬ ∃ j ∈ List.range 5, stepPanics 121 g j) →
          ∃ ys, getYellows h = some ys ∧ ys.length = 5) := by
  have hinner : ∀ (g : guess) (st : List Str), st.length = 5 →
      ((∃ j ∈ List.range 5, stepPanics 121 g j) →
          (List.range 5).foldlM (yellowAdd g) st = none)
        ∧ ((∀ j ∈ List.range 5, ¬ stepPanics 121 g j) →
          ∃ st2, (List.range 5).foldlM (yellowAdd g) st = some st2 ∧ st2.length = 5) :=
    fun g st hst => foldlM_bad (yellowAdd g) (stepPanics 121 g) (fun st => st.length = 5)
      (List.range 5) (fun j _ hb st _ => yellowAdd_bad g j hb st)
      (fun j hj hb st hst => yellowAdd_ok g j (List.mem_range.mp hj) hb st hst) st hst
  obtain ⟨h1, h2⟩ := foldlM_bad
    (fun st g => (List.range 5).foldlM (yellowAdd g) st)
    (fun g => ∃ j ∈ List.range 5, stepPanics 121 g j) (fun st => st.length = 5) h
    (fun g _ hb st hst => (hinner g st hst).1 hb)
    (fun g _ hb st hst => (hinner g st hst).2 (fun j hj hbj => hb ⟨j, hj, hbj⟩))
    [[], [], [], [], []] rfl
  unfold getYellows
  constructor
  · intro hex
    rw [h1 hex]
    rfl
  · intro hall
    obtain ⟨st2, hst2, hlen2⟩ := h2 hall
    rw [hst2, Option.some_bind]
    exact (foldlM_bad yellowFill (fun _ => False) (fun st => st.length = 5) (List.range 5)
      (fun j _ hb => absurd hb id)
      (fun j hj _ st hst => yellowFill_ok j (List.mem_range.mp hj) st hst) st2 hlen2).2
      (fun _ _ hb => hb)

theorem rangeAux_offset (s : Str) (skip off : Nat) (p : Nat × Nat)
    (hp : p ∈ rangeAux skip off s) : off ≤ p.1 ∧ p.1 < off + s.length := by
  induction s generalizing skip off with
  | nil => simp [rangeAux] at hp
  | cons b rest ih =>
    cases skip with
    | zero =>
      simp only [rangeAux, List.mem_cons] at hp
      rcases hp with rfl | hp2
      · simp
      · have := ih _ _ hp2
        simp only [List.length_cons]
        omega
    | succ n =>
      simp only [rangeAux] at hp
      have := ih _ _ hp
      simp only [List.length_cons]
      omega

theorem offset_lt (s : Str) (k : Nat) (hk : k ∈ (rangeStr s).map Prod.fst) : k < s.length := by
  obtain ⟨p, hp, rfl⟩ := List.mem_map.mp hk
  have := (rangeAux_offset s 0 0 p hp).2
  omega

theorem greenSet_bad (g : guess) (k : Nat) (hbad : greenPanics g k) (st : List Str)
    (hst : st.length = 5) : greenSet g st k = none := by
  obtain ⟨h103, hlen⟩ := hbad
  have henc : encodeRune 103 = gee := rfl
  unfold greenSet
  rw [h103]
  cases hb : g.word[k]? with
  | none => simp [henc]
  | some b =>
    rcases hlen with hlen | hlen
    · rw [List.getElem?_eq_none hlen] at hb
      cases hb
    · have hk : ¬ k < st.length := by omega
      simp [henc, hk]

theorem greenSet_ok (g : guess) (k : Nat) (hk : k < g.hits.length) (hok : ¬ greenPanics g k)
    (st : List Str) (hst : st.length = 5) :
    ∃ st2, greenSet g st k = some st2 ∧ st2.length = 5 := by
  unfold greenPanics at hok
  obtain ⟨sc, hsc⟩ := getElem?_of_lt g.hits k hk
  have henc : encodeRune 103 = gee := rfl
  unfold greenSet
  rw [hsc]
  by_cases h103 : sc = 103
  · have hltw : k < g.word.length := by
      by_contra hge
      exact hok ⟨h103 ▸ hsc, Or.inl (by omega)⟩
    have hk5 : k < 5 := by
      by_contra hge
      exact hok ⟨h103 ▸ hsc, Or.inr (by omega)⟩
    obtain ⟨b, hb⟩ := getElem?_of_lt g.word k hltw
    simp [h103, henc, hb, hst, hk5]
  · have hne : encodeRune sc ≠ gee := fun he => h103 (encodeRune_eq_singleton he).1
    simp [hne, hst]

theorem getGreens_fail (h : List guess) :
    ((∃ g ∈ h, ∃ k ∈ (rangeStr g.hits).map Prod.fst, greenPanics g k) → getGreens h = none)
      ∧ ((∀ g ∈ h, ¬ ∃ k ∈ (rangeStr g.hits).map Prod.fst, greenPanics g k) →
          ∃ green : List Str, green.length = 5
            ∧ getGreens h = some (green.enum.map (fun p => ((p.1 : Int), p.2)))) := by
  have hinner : ∀ (g : guess) (st : List Str), st.length = 5 →
      ((∃ k ∈ (rangeStr g.hits).map Prod.fst, greenPanics g k) →
          ((rangeStr g.hits).map Prod.fst).foldlM (greenSet g) st = none)
        ∧ ((∀ k ∈ (rangeStr g.hits).map Prod.fst, ¬ greenPanics g k) →
          ∃ st2, ((rangeStr g.hits).map Prod.fst).foldlM (greenSet g) st = some st2
            ∧ st2.length = 5) :=
    fun g st hst => foldlM_bad (greenSet g) (greenPanics g) (fun st => st.length = 5)
      ((rangeStr g.hits).map Prod.fst) (fun k _ hb st hst => greenSet_bad g k hb st hst)
      (fun k hk hb st hst => greenSet_ok g k (offset_lt g.hits k hk) hb st hst) st hst
  obtain ⟨h1, h2⟩ := foldlM_bad
    (fun st g => ((rangeStr g.hits).map Prod.fst).foldlM (greenSet g) st)
    (fun g => ∃ k ∈ (rangeStr g.hits).map Prod.fst, greenPanics g k)
    (fun st => st.length = 5) h
    (fun g _ hb st hst => (hinner g st hst).1 hb)
    (fun g _ hb st hst => (hinner g st hst).2 (fun k hk hbk => hb ⟨k, hk, hbk⟩))
    [dash, dash, dash, dash, dash] rfl
  unfold getGreens
  constructor
  · intro hex
    rw [h1 hex]
    rfl
  · intro hall
    obtain ⟨st2, hst2, hlen2⟩ := h2 hall
    rw [hst2]
    exact ⟨st2, hlen2, rfl⟩

theorem none_iff_of_fail {α : Type} (o : Option α) (P : Prop) (h1 : P → o = none)
    (h2 : ¬ P → ∃ a, o = some a) : o = none ↔ P := by
  constructor
  · intro hnone
    by_contra hP
    obtain ⟨a, ha⟩ := h2 hP
    rw [hnone] at ha
    cases ha
  · exact h1

/-- Claim C11, the counterexample. A guess whose feedback holds the symbol `x`,
and a guess whose word and feedback have length 6, are classified without
failure: `getNogos`, `getGreens` and `getYellows` return constraint structures,
the symbol `x` being ignored and only the first five positions of the long
guess being read by `getNogos`. -/
theorem malformed_guess_is_classified :
    ((∃ b ∈ str "x.y..", ¬ isFeedback b)
        ∧ getNogos [⟨str "crane", str "x.y.."⟩] = some [str "r", str "n", str "e"]
        ∧ getGreens [⟨str "crane", str "x.y.."⟩]
          = some [(0, dash), (1, dash), (2, dash), (3, dash), (4, dash)]
        ∧ getYellows [⟨str "crane", str "x.y.."⟩] = some [dash, dash, str "a", dash, dash])
      ∧ ((str "cranes").length ≠ 5 ∧ (str "......").length ≠ 5
        ∧ getNogos [⟨str "cranes", str "......"⟩]
          = some [str "c", str "r", str "a", str "n", str "e"]) := by
  decide

/-- Claim C11, as amended. Classification has no error result; it fails only
by a run-time panic on an index out of range, and then returns nothing.
`getNogos` (`getYellows`) fails exactly when some guess has a feedback shorter
than 5, or has `.` (`y`) at a position below 5 at or past the end of its word;
`getGreens` fails exactly when some guess has `g` at the byte offset of a rune
of its feedback that is at or past the end of its word, or is 5 or more. So a
feedback shorter than 5 makes `getNogos` and `getYellows` fail. -/
theorem classification_panics (h : List guess) :
    (getNogos h = none ↔ ∃ g ∈ h, ∃ j, j < 5
        ∧ (g.hits.length ≤ j ∨ (g.hits[j]? = some 46 ∧ g.word.length ≤ j)))
      ∧ (getYellows h = none ↔ ∃ g ∈ h, ∃ j, j < 5
        ∧ (g.hits.length ≤ j ∨ (g.hits[j]? = some 121 ∧ g.word.length ≤ j)))
      ∧ (getGreens h = none ↔ ∃ g ∈ h, ∃ k, k ∈ (rangeStr g.hits).map Prod.fst
        ∧ g.hits[k]? = some 103 ∧ (g.word.length ≤ k ∨ 5 ≤ k))
      ∧ ((∃ g ∈ h, g.hits.length < 5) → getNogos h = none ∧ getYellows h = none) := by
  have hn : getNogos h = none ↔ ∃ g ∈ h, ∃ j ∈ List.range 5, stepPanics 46 g j :=
    none_iff_of_fail _ _ (getNogos_fail h).1
      (fun hno => (getNogos_fail h).2 (fun g hg hb => hno ⟨g, hg, hb⟩))
  have hy : getYellows h = none ↔ ∃ g ∈ h, ∃ j ∈ List.range 5, stepPanics 121 g j :=
    none_iff_of_fail _ _ (getYellows_fail h).1 (fun hno => by
      obtain ⟨ys, hys, _⟩ := (getYellows_fail h).2 (fun g hg hb => hno ⟨g, hg, hb⟩)
      exact ⟨ys, hys⟩)
  have hg : getGreens h = none
      ↔ ∃ g ∈ h, ∃ k ∈ (rangeStr g.hits).map Prod.fst, greenPanics g k :=
    none_iff_of_fail _ _ (getGreens_fail h).1 (fun hno => by
      obtain ⟨green, _, hgreen⟩ := (getGreens_fail h).2 (fun g hg hb => hno ⟨g, hg, hb⟩)
      exact ⟨_, hgreen⟩)
  simp only [List.mem_range, stepPanics] at hn hy
  simp only [greenPanics] at hg
  refine ⟨hn, hy, hg, ?_⟩
  rintro ⟨g, hg2, hlen⟩
  exact ⟨hn.mpr ⟨g, hg2, g.hits.length, hlen, Or.inl (Nat.le_refl _)⟩,
    hy.mpr ⟨g, hg2, g.hits.length, hlen, Or.inl (Nat.le_refl _)⟩⟩

/-- Witness of C11 as amended: a feedback of length 3 makes `getNogos` and
`getYellows` fail. -/
theorem classification_panics_witness :
    (∃ g ∈ [(⟨str "crane", str "..y"⟩ : guess)], g.hits.length < 5)
      ∧ getNogos [⟨str "crane", str "..y"⟩] = none
      ∧ getYellows [⟨str "crane", str "..y"⟩] = none :=
  ⟨by decide, (classification_panics [⟨str "crane", str "..y"⟩]).2.2.2 (by decide)⟩

/-! ## No index out of range on guesses of the right length -/

theorem classify_len5 (h : List guess)
    (hh : ∀ g ∈ h, g.word.length = 5 ∧ g.hits.length = 5) :
    (∃ nogo, getNogos h = some nogo)
      ∧ (∃ green : List Str, green.length = 5
          ∧ getGreens h = some (green.enum.map (fun p => ((p.1 : Int), p.2))))
      ∧ ∃ ys, getYellows h = some ys ∧ ys.length = 5 := by
  have hstep : ∀ sym, ∀ g ∈ h, ¬ ∃ j ∈ List.range 5, stepPanics sym g j := by
    rintro sym g hg ⟨j, hj, hbad⟩
    have hj5 := List.mem_range.mp hj
    obtain ⟨hw, hs⟩ := hh g hg
    rcases hbad with hlen | ⟨_, hlen⟩ <;> omega
  refine ⟨(getNogos_fail h).2 (hstep 46), (getGreens_fail h).2 ?_, (getYellows_fail h).2 (hstep 121)⟩
  rintro g hg ⟨k, hk, _, hbad⟩
  have hk5 := offset_lt g.hits k hk
  obtain ⟨hw, hs⟩ := hh g hg
  rcases hbad with hlen | hlen <;> omega

theorem green_stage_returns (s : List Str) (green : List Str) (hlen : green.length = 5)
    (hs : ∀ w ∈ s, 5 ≤ w.length) :
    ∃ out, removeMissingGreenMatches s (green.enum.map (fun p => ((p.1 : Int), p.2)))
      = some out ∧ out.Sublist s := by
  refine ⟨_, (removeMissingGreenMatches_eq_some s _ _).mpr ⟨?_, rfl⟩,
    sublist_firstOcc_filter s _⟩
  intro w hw p hp _
  obtain ⟨q, hq, rfl⟩ := List.mem_map.mp hp
  obtain ⟨hlt, _⟩ := List.getElem?_eq_some.mp (List.mem_enum_iff_getElem?.mp hq)
  have := hs w hw
  rw [byteAt_natCast, List.getElem?_eq_getElem (by omega : q.1 < w.length)]
  rfl

theorem yellow_stage_returns (s ys : List Str) (hlen : ys.length = 5)
    (hs : ∀ w ∈ s, 5 ≤ w.length) : ∃ out, removeYellowMatches s ys = some out := by
  refine ⟨_, removeYellowMatches_some s ys ?_⟩
  intro w hw p hp _
  obtain ⟨hlt, _⟩ := List.getElem?_eq_some.mp (List.mem_enum_iff_getElem?.mp hp)
  have := hs w hw
  omega

/-- Claim C20. For every history whose guesses all have a word and a feedback of
exactly 5 bytes, and every word list whose words have length at least 5, no
index is out of range: `getNogos`, `getGreens` and `getYellows` return, the
stages `removeMissingGreenMatches` and `removeYellowMatches` return on the
constraints they give (`removeNogoLetters` reads no index), and the pipeline
returns a list. -/
theorem no_index_out_of_range (h : List guess) (ws : List Str)
    (hh : ∀ g ∈ h, g.word.length = 5 ∧ g.hits.length = 5)
    (hws : ∀ w ∈ ws, 5 ≤ w.length) :
    ∃ nogo green yellows, getNogos h = some nogo ∧ getGreens h = some green
      ∧ getYellows h = some yellows
      ∧ (∀ s : List Str, (∀ w ∈ s, 5 ≤ w.length) →
          (∃ out, removeMissingGreenMatches s green = some out)
            ∧ ∃ out, removeYellowMatches s yellows = some out)
      ∧ ∃ out, pipeline h ws = some out := by
  obtain ⟨⟨nogo, hnogo⟩, ⟨green, hglen, hgreen⟩, ⟨ys, hys, hylen⟩⟩ := classify_len5 h hh
  refine ⟨nogo, _, ys, hnogo, hgreen, hys, ?_, ?_⟩
  · intro s hs
    obtain ⟨out, hout, _⟩ := green_stage_returns s green hglen hs
    exact ⟨⟨out, hout⟩, yellow_stage_returns s ys hylen hs⟩
  · have hs1 : ∀ w ∈ removeNogoLetters ws nogo, 5 ≤ w.length := by
      intro w hw
      rw [removeNogoLetters_eq] at hw
      exact hws w ((sublist_firstOcc_filter ws _).subset hw)
    obtain ⟨gw, hgw, hsub⟩ := green_stage_returns (removeNogoLetters ws nogo) green hglen hs1
    obtain ⟨out, hout⟩ := yellow_stage_returns gw ys hylen
      (fun w hw => hs1 w (hsub.subset hw))
    refine ⟨out, ?_⟩
    unfold pipeline
    rw [hnogo, Option.some_bind, hgreen, Option.some_bind, hgw, Option.some_bind, hys,
      Option.some_bind, hout]

/-- Witness of C20: a guess with symbols outside the feedback alphabet and a
word with a digit and a dash, and words of lengths 5 and 7. -/
theorem no_index_out_of_range_witness :
    (∀ g ∈ [(⟨str "a-1zq", str "gy.x?"⟩ : guess), ⟨str "crane", str "ggyy."⟩],
        g.word.length = 5 ∧ g.hits.length = 5)
      ∧ (∀ w ∈ [str "apple", str "cranium"], 5 ≤ w.length)
      ∧ ∃ nogo green yellows,
        getNogos [⟨str "a-1zq", str "gy.x?"⟩, ⟨str "crane", str "ggyy."⟩] = some nogo
        ∧ getGreens [⟨str "a-1zq", str "gy.x?"⟩, ⟨str "crane", str "ggyy."⟩] = some green
        ∧ getYellows [⟨str "a-1zq", str "gy.x?"⟩, ⟨str "crane", str "ggyy."⟩] = some yellows
        ∧ (∀ s : List Str, (∀ w ∈ s, 5 ≤ w.length) →
            (∃ out, removeMissingGreenMatches s green = some out)
              ∧ ∃ out, removeYellowMatches s yellows = some out)
        ∧ ∃ out, pipeline [⟨str "a-1zq", str "gy.x?"⟩, ⟨str "crane", str "ggyy."⟩]
            [str "apple", str "cranium"] = some out :=
  ⟨by decide, by decide, no_index_out_of_range _ _ (by decide) (by decide)⟩

end Re
